import Mathlib

/-!
Shallow embedding of the Segmentation & Alignment Engine of novel-dubber
(`src/novel_dubber/asr.py`, `alignment.py`, `merge.py`) and proofs about it.

Conventions of the embedding:
* Python `float` values are modelled as rationals (`ℚ`); all the comparisons
  and arithmetic performed by the engine are order/field operations that the
  rational model reflects exactly.
* Python strings are modelled as `List Char`.  `str.lower` is modelled on its
  ASCII behaviour (the only case the keep-character classes can observe for
  the scripts this program handles).
* `pykakasi` is an optional external dependency; when it is absent the
  source's `_to_kana` is the identity and `use_kana` is forced off, which is
  the behaviour modelled here (the `useKana` configuration field is kept but
  has no observable effect, exactly as in that configuration of the source).
-/

set_option autoImplicit false
set_option linter.unusedVariables false
set_option maxRecDepth 100000

namespace ND

universe u
variable {α : Type u}

/-- Characters removed by Python `str.strip()` (Unicode whitespace). -/
def isPySpace (c : Char) : Bool :=
  let n := c.toNat
  decide ((9 ≤ n ∧ n ≤ 13) ∨ (28 ≤ n ∧ n ≤ 31) ∨ n = 32 ∨ n = 133 ∨ n = 160 ∨
    n = 5760 ∨ (8192 ≤ n ∧ n ≤ 8202) ∨ n = 8232 ∨ n = 8233 ∨ n = 8239 ∨
    n = 8287 ∨ n = 12288)

/-- Python `str.lstrip()`. -/
def lstrip (t : List Char) : List Char := t.dropWhile isPySpace

/-- Python `str.rstrip()`. -/
def rstrip (t : List Char) : List Char := (t.reverse.dropWhile isPySpace).reverse

/-- Python `str.strip()`. -/
def strip (t : List Char) : List Char := lstrip (rstrip t)

/-- Membership in the keep classes of `_KEEP_RE` in `alignment.py`:
`[0-9a-zA-Z぀-ヿ一-鿿가-힯]`. -/
def isKeep (c : Char) : Bool :=
  let n := c.toNat
  decide ((48 ≤ n ∧ n ≤ 57) ∨ (65 ≤ n ∧ n ≤ 90) ∨ (97 ≤ n ∧ n ≤ 122) ∨
    (0x3040 ≤ n ∧ n ≤ 0x30ff) ∨ (0x4e00 ≤ n ∧ n ≤ 0x9fff) ∨
    (0xac00 ≤ n ∧ n ≤ 0xd7af))

/-- The `_normalize` function of `alignment.py`: lower-case, (identity) kana
fold, then keep only the characters of `_KEEP_RE` (joining the `findall`
pieces is the same as filtering by class membership). -/
def normalize (t : List Char) : List Char :=
  (t.map Char.toLower).filter isKeep

/-- Length of the normalized text; the quantity conserved by consolidation. -/
def nlen (t : List Char) : ℕ := (normalize t).length

/-- The set `_END_PUNCT` of `asr.py`. -/
def ENDPUNCT : List Char := ['。', '！', '？', '.', '!', '?']

/-- The set `_END_QUOTES` of `asr.py`. -/
def ENDQUOTES : List Char := ['"', '\'', '”', '’', '」', '』']

/-- The set `_COMMA_PUNCT` of `asr.py`. -/
def COMMAPUNCT : List Char := ['、', '，', ',', ';', '；']

/-- Characters matched by `_SPACE_RE = [ 　]+` of `asr.py`. -/
def isSpaceRe (c : Char) : Bool := c = ' ' || c.toNat = 0x3000

/-- Characters matched by `_JP_CHAR_RE = [぀-ヿ一-鿿]`. -/
def isJpChar (c : Char) : Bool :=
  let n := c.toNat
  decide ((0x3040 ≤ n ∧ n ≤ 0x30ff) ∨ (0x4e00 ≤ n ∧ n ≤ 0x9fff))

/-- The `_is_sentence_end` predicate of `asr.py`.  The source compiles the
raw-string regex `[。！？.!?]+["'”’」』]?\\s*$`, in which `\\s*` is an escaped
literal backslash followed by `s*` (not a whitespace class!), so a match
requires, reading the stripped text backwards: zero or more letters `s`, one
literal backslash, optionally one closing quote, then at least one
sentence-ending punctuation character. -/
def isSentenceEnd (t : List Char) : Bool :=
  match (strip t).reverse.dropWhile (fun c => c = 's') with
  | [] => false
  | c :: rest =>
    if c = '\\' then
      match rest with
      | [] => false
      | d :: rest2 =>
        if d ∈ ENDQUOTES then
          match rest2 with
          | [] => false
          | e :: _ => decide (e ∈ ENDPUNCT)
        else decide (d ∈ ENDPUNCT)
    else false

/-- The `_join_text` function of `asr.py`. -/
def joinText (a b : List Char) : List Char :=
  if a = [] then b
  else if a.any isJpChar || b.any isJpChar then a ++ b
  else if (match a.getLast? with | some c => c = '-' || c = '—' | none => false) then a ++ b
  else rstrip a ++ ' ' :: lstrip b

/-- Worker of `_split_sentences`: the `while` loop of `asr.py`, carrying the
current buffer.  After a sentence-ending character the following run of
closing quotes is absorbed into the same sentence. -/
def splitSentencesGo (t : List Char) (buf : List Char) : List (List Char) :=
  match t with
  | [] => let r := strip buf; if r = [] then [] else [r]
  | c :: rest =>
    if c ∈ ENDPUNCT then
      let quotes := rest.takeWhile (fun d => decide (d ∈ ENDQUOTES))
      let rest2 := rest.dropWhile (fun d => decide (d ∈ ENDQUOTES))
      let s := strip (buf ++ c :: quotes)
      if s = [] then splitSentencesGo rest2 [] else s :: splitSentencesGo rest2 []
    else splitSentencesGo rest (buf ++ [c])
termination_by t.length
decreasing_by
  all_goals simp only [List.length_cons]
  all_goals first
    | exact Nat.lt_succ_of_le (List.Sublist.length_le (List.dropWhile_sublist _))
    | exact Nat.lt_succ_of_le (Nat.le_refl _)

/-- The `_split_sentences` function of `asr.py`. -/
def splitSentences (t : List Char) : List (List Char) := splitSentencesGo t []

/-- Worker of `_split_by_commas` of `asr.py`. -/
def splitByCommasGo : List Char → List Char → List (List Char)
  | [], buf => let r := strip buf; if r = [] then [] else [r]
  | c :: rest, buf =>
    if c ∈ COMMAPUNCT then
      let s := strip (buf ++ [c])
      if s = [] then splitByCommasGo rest [] else s :: splitByCommasGo rest []
    else splitByCommasGo rest (buf ++ [c])

/-- The `_split_by_commas` function of `asr.py`. -/
def splitByCommas (t : List Char) : List (List Char) :=
  let parts := splitByCommasGo t []
  if parts = [] then [t] else parts

/-- Maximal runs of non-`_SPACE_RE` characters: the non-empty pieces of
`_SPACE_RE.split(text)`. -/
def spaceChunksGo : List Char → List Char → List (List Char)
  | [], buf => if buf = [] then [] else [buf]
  | c :: rest, buf =>
    if isSpaceRe c then
      if buf = [] then spaceChunksGo rest [] else buf :: spaceChunksGo rest []
    else spaceChunksGo rest (buf ++ [c])

/-- The merge loop of `_split_by_spaces`: a part shorter than `min_chars` is
appended to the previous part. -/
def mergeShortGo (minChars : ℕ) (cur : List Char) : List (List Char) → List (List Char)
  | [] => [cur]
  | q :: qs =>
    if q.length < minChars then mergeShortGo minChars (cur ++ q) qs
    else cur :: mergeShortGo minChars q qs

/-- The `_split_by_spaces` function of `asr.py` (default `min_chars = 3`). -/
def splitBySpaces (t : List Char) (minChars : ℕ) : List (List Char) :=
  let raw := ((spaceChunksGo t []).map strip).filter (fun p => decide (p ≠ []))
  if raw.length ≤ 1 then [t]
  else
    match raw with
    | [] => [t]
    | p :: rest => mergeShortGo minChars p rest

/-- Chunking loop of `_split_by_length`: successive slices of `size`
characters, each stripped, empty ones dropped. -/
def chunksOf (size : ℕ) (t : List Char) : List (List Char) :=
  if h : t = [] ∨ size = 0 then []
  else
    let c := strip (t.take size)
    let rest := chunksOf size (t.drop size)
    if c = [] then rest else c :: rest
termination_by t.length
decreasing_by
  rcases t with _ | ⟨x, xs⟩
  · exact absurd (Or.inl rfl) h
  · rw [List.length_drop]
    exact Nat.sub_lt (Nat.succ_pos _) (Nat.pos_of_ne_zero (fun hs => h (Or.inr hs)))

/-- The `_split_by_length` function of `asr.py`. -/
def splitByLength (t : List Char) (parts : ℤ) : List (List Char) :=
  if parts ≤ 1 then [t]
  else
    let t2 := strip t
    if t2 = [] then []
    else
      let size := max 1 ((t2.length + parts.toNat - 1) / parts.toNat)
      chunksOf size t2

/-- A timed text span: the record `{start, end, text, confidence}` consumed
and produced by the Consolidator. -/
structure Span where
  start : ℚ
  end_ : ℚ
  text : List Char
  confidence : ℚ
deriving DecidableEq, Repr

/-- The consolidation-relevant fields of `AudioConfig` in `config.py`. -/
structure AudioConfig where
  minSegmentSec : ℚ
  maxSegmentSec : ℚ
  mergePauseSec : ℚ
deriving DecidableEq, Repr

/-- Total character count of a list of strings. -/
def sumLens (l : List (List Char)) : ℕ := (l.map List.length).sum

/-- The result-building loop of `_split_segment_by_sentence`: each piece gets
a share of the parent duration proportional to its character count, except
that the final piece inherits the parent's exact end. -/
def buildPieces (conf : ℚ) (dur : ℚ) (total : ℕ) (e : ℚ) :
    List (List Char) → ℚ → List Span
  | [], _ => []
  | [s], cur => [⟨cur, e, s, conf⟩]
  | s :: s2 :: rest, cur =>
    let segEnd := cur + dur * (s.length : ℚ) / (total : ℚ)
    ⟨cur, segEnd, s, conf⟩ :: buildPieces conf dur total e (s2 :: rest) segEnd

/-- The refinement loop of `_split_segment_by_sentence`: a sentence whose
predicted duration exceeds `max_segment_sec` is split on commas, and if that
yields a single chunk it is instead split by character count. -/
def refineSentence (cfg : AudioConfig) (dur : ℚ) (total : ℕ) (sent : List Char) :
    List (List Char) :=
  let predicted := dur * (sent.length : ℚ) / (total : ℚ)
  if cfg.maxSegmentSec < predicted then
    let chunks := splitByCommas sent
    if chunks.length = 1 ∧ cfg.maxSegmentSec < predicted then
      splitByLength sent (max 2 ⌈predicted / cfg.maxSegmentSec⌉)
    else chunks
  else [sent]

/-- The `_split_segment_by_sentence` function of `asr.py`. -/
def splitSegmentBySentence (seg : Span) (cfg : AudioConfig) : List Span :=
  let text := strip seg.text
  if text = [] then []
  else
    let dur := max (1/1000) (seg.end_ - seg.start)
    let sentences0 := splitSentences text
    let sentences1 := if sentences0 = [] then [text] else sentences0
    let sentences :=
      if sentences1.length = 1 ∧ text.any isSpaceRe then splitBySpaces text 3
      else sentences1
    let total := max 1 (sumLens sentences)
    let refined0 := sentences.foldl (fun acc sent => acc ++ refineSentence cfg dur total sent) []
    let refined := if refined0 = [] then [text] else refined0
    let total2 := max 1 (sumLens refined)
    buildPieces seg.confidence dur total2 seg.end_ refined seg.start

/-- The `_split_segments` pass of `asr.py`: splitting applied to every merged
segment, results concatenated in order. -/
def splitSegments (segs : List Span) (cfg : AudioConfig) : List Span :=
  segs.foldl (fun acc s => acc ++ splitSegmentBySentence s cfg) []

/-- The merge accumulator `cur` of `_merge_asr_segments`. -/
structure MAcc where
  start : ℚ
  end_ : ℚ
  text : List Char
deriving DecidableEq, Repr

/-- The loop state of `_merge_asr_segments`: the optional accumulator, the
duration-weighted confidence sums, and the output so far. -/
structure MState where
  cur : Option MAcc
  confSum : ℚ
  durSum : ℚ
  merged : List Span
deriving DecidableEq, Repr

/-- Flushing the accumulator into an output record, with the duration-weighted
confidence `conf_sum / max(0.001, dur_sum)`. -/
def flushAcc (c : MAcc) (confSum durSum : ℚ) : Span :=
  ⟨c.start, c.end_, c.text, confSum / max (1/1000) durSum⟩

/-- One iteration of the loop of `_merge_asr_segments` over an input span. -/
def mergeStep (cfg : AudioConfig) (st : MState) (seg : Span) : MState :=
  let text := strip seg.text
  if text = [] then st
  else
    let dur := max 0 (seg.end_ - seg.start)
    let conf := seg.confidence
    match st.cur with
    | none => ⟨some ⟨seg.start, seg.end_, text⟩, conf * dur, dur, st.merged⟩
    | some c =>
      let gap := seg.start - c.end_
      let curLen := c.end_ - c.start
      if cfg.mergePauseSec < gap ∨
          (cfg.minSegmentSec ≤ curLen ∧ cfg.maxSegmentSec < curLen + dur) then
        ⟨some ⟨seg.start, seg.end_, text⟩, conf * dur, dur,
          st.merged ++ [flushAcc c st.confSum st.durSum]⟩
      else
        let c2 : MAcc := ⟨c.start, seg.end_, joinText c.text text⟩
        let confSum2 := st.confSum + conf * dur
        let durSum2 := st.durSum + dur
        if isSentenceEnd text ∧ cfg.minSegmentSec ≤ seg.end_ - c.start then
          ⟨none, 0, 0, st.merged ++ [flushAcc c2 confSum2 durSum2]⟩
        else ⟨some c2, confSum2, durSum2, st.merged⟩

/-- The `_merge_asr_segments` function of `asr.py`: fold the step over the
spans, then flush any remaining accumulator. -/
def mergeAsrSegments (segs : List Span) (cfg : AudioConfig) : List Span :=
  let fin := segs.foldl (mergeStep cfg) ⟨none, 0, 0, []⟩
  match fin.cur with
  | none => fin.merged
  | some c => fin.merged ++ [flushAcc c fin.confSum fin.durSum]

/-! Similarity metric: `difflib.SequenceMatcher(None, a, b).ratio()`.
`isjunk` is `None`, so the junk set is empty and the junk-extension loops of
`find_longest_match` never run; the autojunk rule (elements occurring more
than `len(b)//200 + 1` times when `len(b) ≥ 200`) is kept. -/

/-- The `b2j` table of `SequenceMatcher.__chain_b`: the positions of `c` in
`b`, or `[]` when `c` is autojunk-popular. -/
def b2j (b : List Char) (c : Char) : List ℕ :=
  let idxs := (List.range b.length).filter (fun j => decide (b.getD j ' ' = c))
  if 200 ≤ b.length ∧ b.length / 200 + 1 < idxs.length then [] else idxs

/-- Inner loop of `find_longest_match` over the positions of `a[i]` in `b`:
builds the new `j2len` row and updates the best block.  `jl` is the previous
row (`j2len.get(j-1, 0)`, with `j = 0` reading the absent key `-1`). -/
def flmInner (jl : ℕ → ℕ) (i blo bhi : ℕ) :
    List ℕ → (ℕ × ℕ × ℕ) → (ℕ → ℕ) → (ℕ × ℕ × ℕ) × (ℕ → ℕ)
  | [], best, newjl => (best, newjl)
  | j :: js, best, newjl =>
    if j < blo then flmInner jl i blo bhi js best newjl
    else if bhi ≤ j then (best, newjl)
    else
      let k := (if j = 0 then 0 else jl (j - 1)) + 1
      let newjl2 := fun x => if x = j then k else newjl x
      let best2 := if best.2.2 < k then (i + 1 - k, j + 1 - k, k) else best
      flmInner jl i blo bhi js best2 newjl2

/-- Outer loop of `find_longest_match` over `i ∈ [alo, ahi)`. -/
def flmRows (a b : List Char) (blo bhi : ℕ) :
    List ℕ → (ℕ × ℕ × ℕ) → (ℕ → ℕ) → (ℕ × ℕ × ℕ) × (ℕ → ℕ)
  | [], best, jl => (best, jl)
  | i :: irest, best, jl =>
    let p := flmInner jl i blo bhi (b2j b (a.getD i ' ')) best (fun _ => 0)
    flmRows a b blo bhi irest p.1 p.2

/-- Leftward extension loop of `find_longest_match` (the junk set is empty,
so only the equal-characters condition remains). -/
def extendLeft (a b : List Char) (alo blo : ℕ) (besti bestj bestsize : ℕ) :
    ℕ × ℕ × ℕ :=
  if h : alo < besti ∧ blo < bestj ∧ a.getD (besti - 1) ' ' = b.getD (bestj - 1) ' ' then
    extendLeft a b alo blo (besti - 1) (bestj - 1) (bestsize + 1)
  else (besti, bestj, bestsize)
termination_by besti
decreasing_by exact Nat.sub_lt (Nat.lt_of_le_of_lt (Nat.zero_le _) h.1) Nat.one_pos

/-- Rightward extension loop of `find_longest_match`. -/
def extendRight (a b : List Char) (ahi bhi : ℕ) (besti bestj bestsize : ℕ) :
    ℕ × ℕ × ℕ :=
  if h : besti + bestsize < ahi ∧ bestj + bestsize < bhi ∧
      a.getD (besti + bestsize) ' ' = b.getD (bestj + bestsize) ' ' then
    extendRight a b ahi bhi besti bestj (bestsize + 1)
  else (besti, bestj, bestsize)
termination_by ahi - (besti + bestsize)
decreasing_by
  have h1 : besti + bestsize < ahi := h.1
  omega

/-- The `find_longest_match(alo, ahi, blo, bhi)` method. -/
def flm (a b : List Char) (alo ahi blo bhi : ℕ) : ℕ × ℕ × ℕ :=
  let dp := flmRows a b blo bhi (List.range' alo (ahi - alo)) (alo, blo, 0) (fun _ => 0)
  let l := extendLeft a b alo blo dp.1.1 dp.1.2.1 dp.1.2.2
  extendRight a b ahi bhi l.1 l.2.1 l.2.2

/-- Search-rectangle invariant for the best block computed by
`find_longest_match`: either nothing was found (the initial value) or the
block lies inside the searched rectangle. -/
def FlmBestInv (alo ahi blo bhi : ℕ) (x : ℕ × ℕ × ℕ) : Prop :=
  (x.2.2 = 0 → x = (alo, blo, 0)) ∧
  (x.2.2 ≠ 0 → alo ≤ x.1 ∧ x.1 + x.2.2 ≤ ahi ∧ blo ≤ x.2.1 ∧ x.2.1 + x.2.2 ≤ bhi)

/-- Search-rectangle invariant for a `j2len` row: an entry of value `v` at
column `j` stands for `v` consecutive matches ending strictly below row
`bnd` and inside the column range. -/
def FlmRowInv (alo blo bhi bnd : ℕ) (f : ℕ → ℕ) : Prop :=
  ∀ j, f j ≠ 0 → blo ≤ j ∧ j < bhi ∧ alo + f j ≤ bnd ∧ blo + f j ≤ j + 1

/-- Total size of the matching blocks of `get_matching_blocks`, as the
fuelled recursion of the queue loop: recurse on both sides of the longest
match.  The fuel `(ahi-alo)+(bhi-blo)+1` always suffices, because a non-empty
longest match lies inside the range, so each side is strictly smaller (see
`flm_bounds` below). -/
def matchingMF (a b : List Char) : ℕ → ℕ → ℕ → ℕ → ℕ → ℕ
  | 0, _, _, _, _ => 0
  | fuel + 1, alo, ahi, blo, bhi =>
    let m := flm a b alo ahi blo bhi
    if m.2.2 = 0 then 0
    else matchingMF a b fuel alo m.1 blo m.2.1 + m.2.2 +
      matchingMF a b fuel (m.1 + m.2.2) ahi (m.2.1 + m.2.2) bhi

/-- The `matches` total of `SequenceMatcher.ratio()`. -/
def matchingTotal (a b : List Char) : ℕ :=
  matchingMF a b (a.length + b.length + 1) 0 a.length 0 b.length

/-- `difflib._calculate_ratio`. -/
def ratioCalc (m total : ℕ) : ℚ :=
  if total = 0 then 1 else 2 * (m : ℚ) / (total : ℚ)

/-- The `_similarity` function of `alignment.py`: `0.0` on an empty operand,
otherwise the sequence-matcher ratio. -/
def similarity (a b : List Char) : ℚ :=
  if a = [] ∨ b = [] then 0
  else ratioCalc (matchingTotal a b) (a.length + b.length)

/-- Python `round(q, 4)` (round half to even at four decimal places),
modelled on exact rationals. -/
def round4 (q : ℚ) : ℚ :=
  let x := q * 10000
  let f : ℤ := ⌊x⌋
  let r := x - (f : ℚ)
  let n : ℤ :=
    if r < 1/2 then f
    else if (1/2 : ℚ) < r then f + 1
    else if f % 2 = 0 then f else f + 1
  (n : ℚ) / 10000

/-- An author text segment (the fields of the input records that the aligner
reads or copies). -/
structure TextSeg where
  segmentId : String
  text : List Char
deriving DecidableEq, Repr

/-- A word-level timed unit from `asr_words.jsonl`. -/
structure Word where
  start : ℚ
  end_ : ℚ
  word : List Char
deriving DecidableEq, Repr

/-- A consolidated ASR segment as read by the segment-mode aligner. -/
structure AsrSeg where
  start : ℚ
  end_ : ℚ
  text : List Char
deriving DecidableEq, Repr

/-- The alignment fields of `AlignmentConfig` in `config.py`. -/
structure AlignmentConfig where
  searchWindow : ℤ
  maxCombine : ℤ
  minScore : ℚ
  advanceOnMiss : ℤ
  offsetWindowSegments : ℤ
  offsetSearchWords : ℤ
  useKana : Bool
deriving DecidableEq, Repr

/-- A best-match candidate `(start_idx, end_idx, score, text)`. -/
structure BMatch where
  i : ℕ
  j : ℕ
  score : ℚ
  text : List Char
deriving DecidableEq, Repr

/-- Raw text of `words[i:j+1]` joined, as stored by `_best_match_words`. -/
def rawJoinW (words : List Word) (i j : ℕ) : List Char :=
  (((words.drop i).take (j + 1 - i)).map Word.word).flatten

/-- Update of the running best candidate (`if best is None or score > best[2]`). -/
def updBest (best : Option BMatch) (m : BMatch) : Option BMatch :=
  match best with
  | none => some m
  | some b => if b.score < m.score then some m else some b

/-- Inner loop of `_best_match_words` over `j`: grow the combined candidate,
score it, and return early on a score of at least `0.98`. -/
def bmwInner (normText : List Char) (words : List Word) (wordsNorm : List (List Char))
    (i : ℕ) : List ℕ → List Char → Option BMatch → Option BMatch × Bool
  | [], _, best => (best, false)
  | j :: js, combined, best =>
    let combined2 := combined ++ wordsNorm.getD j []
    let score := similarity normText combined2
    let best2 := updBest best ⟨i, j, score, rawJoinW words i j⟩
    if (98/100 : ℚ) ≤ score then (best2, true)
    else bmwInner normText words wordsNorm i js combined2 best2

/-- Outer loop of `_best_match_words` over start indices `i`. -/
def bmwOuter (normText : List Char) (words : List Word) (wordsNorm : List (List Char))
    (endLimit maxWords : ℕ) : List ℕ → Option BMatch → Option BMatch
  | [], best => best
  | i :: irest, best =>
    let p := bmwInner normText words wordsNorm i
      (List.range' i (min endLimit (i + maxWords) - i)) [] best
    if p.2 then p.1 else bmwOuter normText words wordsNorm endLimit maxWords irest p.1

/-- The `_best_match_words` function of `alignment.py`. -/
def bestMatchWords (text : List Char) (words : List Word) (wordsNorm : List (List Char))
    (startIdx searchWindow maxWords : ℕ) : Option BMatch :=
  if wordsNorm.length ≤ startIdx then none
  else
    let endLimit := min wordsNorm.length (startIdx + searchWindow)
    let normText := normalize text
    if normText = [] then none
    else bmwOuter normText words wordsNorm endLimit maxWords
      (List.range' startIdx (endLimit - startIdx)) none

/-- Inner loop of `_best_match_segments` over `j`: the combined candidate is
the raw text, normalized only for scoring. -/
def bmsInner (normText : List Char) (segs : List AsrSeg) (i : ℕ) :
    List ℕ → List Char → Option BMatch → Option BMatch × Bool
  | [], _, best => (best, false)
  | j :: js, combined, best =>
    let combined2 := combined ++ (segs.getD j ⟨0, 0, []⟩).text
    let score := similarity normText (normalize combined2)
    let best2 := updBest best ⟨i, j, score, combined2⟩
    if (98/100 : ℚ) ≤ score then (best2, true)
    else bmsInner normText segs i js combined2 best2

/-- Outer loop of `_best_match_segments` over start indices `i`. -/
def bmsOuter (normText : List Char) (segs : List AsrSeg) (endLimit maxCombine : ℕ) :
    List ℕ → Option BMatch → Option BMatch
  | [], best => best
  | i :: irest, best =>
    let p := bmsInner normText segs i
      (List.range' i (min endLimit (i + maxCombine) - i)) [] best
    if p.2 then p.1 else bmsOuter normText segs endLimit maxCombine irest p.1

/-- The `_best_match_segments` function of `alignment.py`. -/
def bestMatchSegments (text : List Char) (segs : List AsrSeg)
    (startIdx searchWindow maxCombine : ℕ) : Option BMatch :=
  if segs.length ≤ startIdx then none
  else
    let endLimit := min segs.length (startIdx + searchWindow)
    let normText := normalize text
    if normText = [] then none
    else bmsOuter normText segs endLimit maxCombine
      (List.range' startIdx (endLimit - startIdx)) none

/-- Stable insertion of `x` into a list sorted by `key` (ties keep `x` after
earlier elements, matching Python's stable `list.sort`). -/
def insertByKey (key : α → ℚ) (x : α) : List α → List α
  | [] => [x]
  | y :: ys => if key x ≤ key y then x :: y :: ys else y :: insertByKey key x ys

/-- Stable sort by a rational key, modelling Python `list.sort(key=...)`. -/
def sortByKey (key : α → ℚ) : List α → List α
  | [] => []
  | x :: xs => insertByKey key x (sortByKey key xs)

/-- The alignment annotations added by `out.update({...})` in
`align_text_to_asr` / `align_text_to_words`; `startQ`/`endQ` are the
timestamps, present only on an aligned hit. -/
structure AInfo where
  startQ : Option ℚ
  endQ : Option ℚ
  aligned : Bool
  matchScore : ℚ
  startIdx : ℤ
  endIdx : ℤ
  asrText : List Char
deriving DecidableEq, Repr

/-- One output record of the aligner: the copied input segment plus the added
annotations (`info = none` means the record was written back unmodified). -/
structure ARow where
  seg : TextSeg
  info : Option AInfo
deriving DecidableEq, Repr

/-- The record emitted for a text segment below the detected offset index. -/
def offStub (s : TextSeg) : ARow :=
  ⟨s, some ⟨none, none, false, 0, -1, -1, []⟩⟩

/-- The record emitted on a failed match, carrying the best diagnostic score
(rounded to four decimals) and candidate text when one exists. -/
def missRow (s : TextSeg) (m : Option BMatch) : ARow :=
  ⟨s, some ⟨none, none, false,
    (match m with | some mm => round4 mm.score | none => 0), -1, -1,
    (match m with | some mm => mm.text | none => [])⟩⟩

/-- The record emitted on a successful word-mode match. -/
def hitRowW (s : TextSeg) (m : BMatch) (words : List Word) : ARow :=
  let startTs := (words.getD m.i ⟨0, 0, []⟩).start
  let endTs := (words.getD m.j ⟨0, 0, []⟩).end_
  ⟨s, some ⟨some startTs, some endTs, true, round4 m.score, (m.i : ℤ), (m.j : ℤ), m.text⟩⟩

/-- The record emitted on a successful segment-mode match. -/
def hitRowS (s : TextSeg) (m : BMatch) (asr : List AsrSeg) : ARow :=
  let startTs := (asr.getD m.i ⟨0, 0, []⟩).start
  let endTs := (asr.getD m.j ⟨0, 0, []⟩).end_
  ⟨s, some ⟨some startTs, some endTs, true, round4 m.score, (m.i : ℤ), (m.j : ℤ), m.text⟩⟩

/-- The scan loop of `_find_text_offset` over candidate start indices,
keeping the first strictly-highest score. -/
def ftoGo (segs : List TextSeg) (windowSize : ℕ) (audioNorm : List Char) :
    List ℕ → ℕ × ℚ → ℕ × ℚ
  | [], best => best
  | i :: rest, best =>
    let wn := normalize (((segs.drop i).take windowSize).map TextSeg.text).flatten
    if wn = [] then ftoGo segs windowSize audioNorm rest best
    else
      let sc := similarity wn audioNorm
      if best.2 < sc then ftoGo segs windowSize audioNorm rest (i, sc)
      else ftoGo segs windowSize audioNorm rest best

/-- The `_find_text_offset` function of `alignment.py`. -/
def findTextOffset (segs : List TextSeg) (wordsNorm : List (List Char))
    (cfgA : AlignmentConfig) : ℕ × ℚ :=
  if segs = [] ∨ wordsNorm = [] then (0, 0)
  else
    let windowSize := (max 1 cfgA.offsetWindowSegments).toNat
    let audioNorm := (wordsNorm.take (max 1 cfgA.offsetSearchWords).toNat).flatten
    if audioNorm = [] then (0, 0)
    else ftoGo segs windowSize audioNorm (List.range (segs.length - windowSize + 1)) (0, 0)

/-- The similarity the offset scan computes for the window starting at text
index `i` (an empty normalized window scores `0`, exactly the effect of the
`continue` in the source). -/
def windowScore (segs : List TextSeg) (windowSize : ℕ) (audioNorm : List Char)
    (i : ℕ) : ℚ :=
  similarity (normalize (((segs.drop i).take windowSize).map TextSeg.text).flatten) audioNorm

/-- The per-segment loop of `align_text_to_words`, carrying the enumeration
index and the monotone cursor into the (filtered) word stream. -/
def awGo (words : List Word) (wordsNorm : List (List Char)) (cfgA : AlignmentConfig)
    (offIdx : ℕ) : List TextSeg → ℕ → ℕ → List ARow
  | [], _, _ => []
  | s :: rest, idx, cursor =>
    if idx < offIdx then offStub s :: awGo words wordsNorm cfgA offIdx rest (idx + 1) cursor
    else
      let sw := (max 1 cfgA.searchWindow).toNat
      let mc := (max 1 cfgA.maxCombine).toNat
      let adv := (max 0 cfgA.advanceOnMiss).toNat
      match bestMatchWords s.text words wordsNorm cursor sw mc with
      | some m =>
        if cfgA.minScore ≤ m.score then
          hitRowW s m words :: awGo words wordsNorm cfgA offIdx rest (idx + 1) (m.j + 1)
        else
          missRow s (some m) :: awGo words wordsNorm cfgA offIdx rest (idx + 1)
            (if adv = 0 then cursor else min wordsNorm.length (cursor + adv))
      | none =>
        missRow s none :: awGo words wordsNorm cfgA offIdx rest (idx + 1)
          (if adv = 0 then cursor else min wordsNorm.length (cursor + adv))

/-- The word filtering of `align_text_to_words`: sort by start, keep the
words whose normalized text is non-empty. -/
def filteredWordsOf (words : List Word) : List Word :=
  (sortByKey Word.start words).filter (fun w => decide (normalize w.word ≠ []))

/-- The `words_norm` list of `align_text_to_words`. -/
def wordsNormOf (words : List Word) : List (List Char) :=
  (filteredWordsOf words).map (fun w => normalize w.word)

/-- The `align_text_to_words` function of `alignment.py`, at the level of the
in-memory record lists (file I/O elided): sort the words by start, drop the
words with empty normalized text, detect the global offset, then align. -/
def alignTextToWords (segs : List TextSeg) (words : List Word)
    (cfgA : AlignmentConfig) : List ARow :=
  if segs = [] ∨ words = [] then segs.map (fun s => ⟨s, none⟩)
  else
    if wordsNormOf words = [] then segs.map (fun s => ⟨s, none⟩)
    else awGo (filteredWordsOf words) (wordsNormOf words) cfgA
      (findTextOffset segs (wordsNormOf words) cfgA).1 segs 0 0

/-- The start index an output record carries (`asr_start_idx` in segment
mode, `word_start_idx` in word mode; `-1` on an unaligned record). -/
def rowStartIdx (r : ARow) : ℤ :=
  match r.info with
  | some a => a.startIdx
  | none => -1

/-- The per-segment loop of `align_text_to_asr` (no offset pass, cursor into
the consolidated segment stream). -/
def asGo (asr : List AsrSeg) (cfgA : AlignmentConfig) : List TextSeg → ℕ → List ARow
  | [], _ => []
  | s :: rest, cursor =>
    let sw := (max 1 cfgA.searchWindow).toNat
    let mc := (max 1 cfgA.maxCombine).toNat
    let adv := (max 0 cfgA.advanceOnMiss).toNat
    match bestMatchSegments s.text asr cursor sw mc with
    | some m =>
      if cfgA.minScore ≤ m.score then
        hitRowS s m asr :: asGo asr cfgA rest (m.j + 1)
      else
        missRow s (some m) :: asGo asr cfgA rest
          (if adv = 0 then cursor else min asr.length (cursor + adv))
    | none =>
      missRow s none :: asGo asr cfgA rest
        (if adv = 0 then cursor else min asr.length (cursor + adv))

/-- The `align_text_to_asr` function of `alignment.py`, at the level of the
in-memory record lists (the word-stream delegation and file I/O elided). -/
def alignTextToAsr (segs : List TextSeg) (asr : List AsrSeg)
    (cfgA : AlignmentConfig) : List ARow :=
  if segs = [] ∨ asr = [] then segs.map (fun s => ⟨s, none⟩)
  else asGo (sortByKey AsrSeg.start asr) cfgA segs 0

/-- An ASR record as read by `merge_asr_diarization` (`text` and
`confidence` are looked up with defaults). -/
structure AsrJson where
  start : ℚ
  end_ : ℚ
  text : Option (List Char)
  confidence : Option ℚ
deriving DecidableEq, Repr

/-- A diarization turn (`speaker` and `overlap` are looked up with
defaults). -/
structure DiarTurn where
  start : ℚ
  end_ : ℚ
  speaker : Option String
  overlap : Option Bool
deriving DecidableEq, Repr

/-- The merge-relevant field of `DiarizationConfig` in `config.py`. -/
structure DiarizationConfig where
  overlapThreshold : ℚ
deriving DecidableEq, Repr

/-- An output record of `merge_asr_diarization`. -/
structure MergeRow where
  segmentId : String
  start : ℚ
  end_ : ℚ
  text : List Char
  confidence : ℚ
  speakerCluster : String
  overlap : Bool
deriving DecidableEq, Repr

/-- The `_overlap` helper of `merge.py`. -/
def overlapQ (aS aE bS bE : ℚ) : ℚ := max 0 (min aE bE - max aS bS)

/-- The scan of the sorted diarization turns for one ASR segment `[s, e]`,
accumulating `(best_overlap, best_speaker, overlap_dur)`; a turn entirely
before the segment is skipped and the scan stops at the first turn starting
after `e`. -/
def scanTurns (s e : ℚ) : List DiarTurn → ℚ × String × ℚ → ℚ × String × ℚ
  | [], st => st
  | d :: rest, st =>
    if d.end_ < s then scanTurns s e rest st
    else if e < d.start then st
    else
      let ov := overlapQ s e d.start d.end_
      if ov ≤ 0 then scanTurns s e rest st
      else
        let od := if d.overlap.getD false then st.2.2 + ov else st.2.2
        if st.1 < ov then scanTurns s e rest (ov, d.speaker.getD "UNKNOWN", od)
        else scanTurns s e rest (st.1, st.2.1, od)

/-- Python `f"{idx:06d}"`: decimal digits zero-padded to width at least 6. -/
def pad6 (n : ℕ) : String :=
  let s := toString n
  String.mk (List.replicate (6 - s.length) '0') ++ s

/-- The output record `merge_asr_diarization` builds for the segment at
position `idx`: the two UNKNOWN-forcing rules applied to the scan result. -/
def mergeRow (idx : ℕ) (seg : AsrJson) (diarS : List DiarTurn)
    (cfgD : DiarizationConfig) : MergeRow :=
  let s := seg.start
  let e := seg.end_
  let segLen := max (1/1000) (e - s)
  let r := scanTurns s e diarS (0, "UNKNOWN", 0)
  let sp1 := if r.1 / segLen < 1/10 then "UNKNOWN" else r.2.1
  let sp2 := if cfgD.overlapThreshold ≤ r.2.2 / segLen then "UNKNOWN" else sp1
  ⟨"seg_" ++ pad6 idx, s, e, seg.text.getD [], seg.confidence.getD 0, sp2,
    decide (cfgD.overlapThreshold ≤ r.2.2 / segLen)⟩

/-- The enumeration loop of `merge_asr_diarization`. -/
def mergeGo (diarS : List DiarTurn) (cfgD : DiarizationConfig) :
    List AsrJson → ℕ → List MergeRow
  | [], _ => []
  | seg :: rest, idx => mergeRow idx seg diarS cfgD :: mergeGo diarS cfgD rest (idx + 1)

/-- The `merge_asr_diarization` function of `merge.py`, at the level of the
in-memory record lists: sort the turns by start, then map each ASR segment to
its output record. -/
def mergeAsrDiarization (asr : List AsrJson) (diar : List DiarTurn)
    (cfgD : DiarizationConfig) : List MergeRow :=
  mergeGo (sortByKey DiarTurn.start diar) cfgD asr 0

/-! ## Shared lemmas -/

/-- Characters survive `normalize` exactly when their lower-cased form is in
the keep classes, so `nlen` is a `countP`. -/
theorem nlen_eq_countP (t : List Char) :
    nlen t = t.countP (fun c => isKeep c.toLower) := by
  simp [nlen, normalize, ← List.countP_eq_length_filter, List.countP_map,
    Function.comp_def]

theorem nlen_append (a b : List Char) : nlen (a ++ b) = nlen a + nlen b := by
  simp [nlen_eq_countP, List.countP_append]

theorem nlen_cons (c : Char) (t : List Char) :
    nlen (c :: t) = (if isKeep c.toLower then 1 else 0) + nlen t := by
  simp only [nlen_eq_countP, List.countP_cons]
  by_cases h : isKeep c.toLower = true <;> simp [h] <;> omega

theorem nlen_reverse (t : List Char) : nlen t.reverse = nlen t := by
  simp [nlen_eq_countP, List.countP_reverse]

/-- A Python-whitespace character never survives normalization. -/
theorem isPySpace_not_keep {c : Char} (h : isPySpace c = true) :
    isKeep c.toLower = false := by
  simp only [isPySpace, decide_eq_true_eq] at h
  have hcond : ¬ (c.toNat ≥ 65 ∧ c.toNat ≤ 90) := by omega
  have hlow : c.toLower = c := by
    unfold Char.toLower
    simp [hcond]
  rw [hlow]
  simp only [isKeep, decide_eq_false_iff_not]
  omega

theorem nlen_dropWhile_isPySpace (t : List Char) :
    nlen (t.dropWhile isPySpace) = nlen t := by
  induction t with
  | nil => rfl
  | cons c rest ih =>
    by_cases h : isPySpace c = true
    · rw [List.dropWhile_cons_of_pos h, ih, nlen_cons, isPySpace_not_keep h]
      simp
    · rw [List.dropWhile_cons_of_neg (by simp [h])]

theorem nlen_lstrip (t : List Char) : nlen (lstrip t) = nlen t :=
  nlen_dropWhile_isPySpace t

theorem nlen_rstrip (t : List Char) : nlen (rstrip t) = nlen t := by
  rw [rstrip, nlen_reverse, nlen_dropWhile_isPySpace, nlen_reverse]

theorem nlen_strip (t : List Char) : nlen (strip t) = nlen t := by
  rw [strip, nlen_lstrip, nlen_rstrip]

theorem nlen_space_char : isKeep (Char.toLower ' ') = false := by decide

/-- Joining never changes the total normalized length: the inserted space (if
any) does not survive normalization, and stripping does not either. -/
theorem joinText_nlen (a b : List Char) :
    nlen (joinText a b) = nlen a + nlen b := by
  unfold joinText
  by_cases ha : a = []
  · simp [ha, nlen_eq_countP]
  · rw [if_neg ha]
    by_cases hjp : (a.any isJpChar || b.any isJpChar) = true
    · rw [if_pos hjp, nlen_append]
    · rw [if_neg hjp]
      by_cases hdash :
          (match a.getLast? with | some c => c = '-' || c = '—' | none => false) = true
      · rw [if_pos hdash, nlen_append]
      · rw [if_neg hdash, nlen_append, nlen_cons, nlen_space_char, nlen_rstrip,
          nlen_lstrip]
        simp

/-- The ratio is non-negative. -/
theorem similarity_nonneg (a b : List Char) : 0 ≤ similarity a b := by
  unfold similarity ratioCalc
  by_cases h : a = [] ∨ b = []
  · simp [h]
  · rw [if_neg h]
    by_cases ht : a.length + b.length = 0
    · simp [ht]
    · rw [if_neg ht]
      positivity

theorem similarity_nil_left (b : List Char) : similarity [] b = 0 := by
  simp [similarity]

theorem similarity_nil_right (a : List Char) : similarity a [] = 0 := by
  simp [similarity]

/-! ## Claim C10 -/

theorem mergeGo_length (d : List DiarTurn) (cfgD : DiarizationConfig) :
    ∀ (l : List AsrJson) (idx : ℕ), (mergeGo d cfgD l idx).length = l.length := by
  intro l
  induction l with
  | nil => intro idx; rfl
  | cons g rest ih => intro idx; simp [mergeGo, ih]

theorem mergeGo_getElem? (d : List DiarTurn) (cfgD : DiarizationConfig) :
    ∀ (l : List AsrJson) (idx k : ℕ),
      (mergeGo d cfgD l idx)[k]? = (l[k]?).map (fun g => mergeRow (idx + k) g d cfgD) := by
  intro l
  induction l with
  | nil => intro idx k; simp [mergeGo]
  | cons g rest ih =>
    intro idx k
    cases k with
    | zero => simp [mergeGo]
    | succ k =>
      simp only [mergeGo, List.getElem?_cons_succ, ih (idx + 1) k]
      have : idx + 1 + k = idx + (k + 1) := by omega
      rw [this]

/-- C10: the Diarization Merger is a frame-preserving per-segment map: it
emits exactly one output record per input segment, in input order, whose
`start`, `end`, `text` (default `""`) and `confidence` (default `0.0`) equal
the input's, and whose `segment_id` is `"seg_"` followed by the zero-based
position zero-padded to six digits; only `speaker_cluster` and `overlap` are
newly computed. -/
theorem c10_merger_frame (asr : List AsrJson) (diar : List DiarTurn)
    (cfgD : DiarizationConfig) :
    (mergeAsrDiarization asr diar cfgD).length = asr.length ∧
    ∀ k : ℕ,
      ((mergeAsrDiarization asr diar cfgD)[k]?).map
        (fun r => (r.start, r.end_, r.text, r.confidence, r.segmentId)) =
      (asr[k]?).map
        (fun g => (g.start, g.end_, g.text.getD [], g.confidence.getD 0,
          "seg_" ++ pad6 k)) := by
  constructor
  · exact mergeGo_length _ _ asr 0
  · intro k
    rw [mergeAsrDiarization, mergeGo_getElem?]
    cases h : asr[k]? with
    | none => rfl
    | some g =>
      simp only [Option.map_some']
      have : (0 : ℕ) + k = k := by omega
      rw [this]
      rfl

/-! ## Claim C9 -/

theorem mem_insertByKey {key : α → ℚ} {x y : α} :
    ∀ {l : List α}, y ∈ insertByKey key x l ↔ y = x ∨ y ∈ l := by
  intro l
  induction l with
  | nil => simp [insertByKey]
  | cons z zs ih =>
    by_cases h : key x ≤ key z
    · simp [insertByKey, h]
    · simp only [insertByKey, if_neg h, List.mem_cons, ih]
      tauto

theorem mem_sortByKey {key : α → ℚ} {y : α} :
    ∀ {l : List α}, y ∈ sortByKey key l ↔ y ∈ l := by
  intro l
  induction l with
  | nil => simp [sortByKey]
  | cons z zs ih => simp [sortByKey, mem_insertByKey, ih]

/-- C9: the Fuzzy Aligner degrades rather than fails on empty input: on an
empty text-segment list or an empty timed-unit list (and, in word mode, a
word list whose every word normalizes to the empty string) both alignment
operations write the text segments back unmodified; in the embedding both
functions are total, so no error is possible. -/
theorem c9_empty_degrades (segs : List TextSeg) (asr : List AsrSeg)
    (words : List Word) (cfgA : AlignmentConfig) :
    (segs = [] ∨ asr = [] →
      alignTextToAsr segs asr cfgA = segs.map (fun s => ⟨s, none⟩)) ∧
    (segs = [] ∨ words = [] ∨ (∀ w ∈ words, normalize w.word = []) →
      alignTextToWords segs words cfgA = segs.map (fun s => ⟨s, none⟩)) := by
  constructor
  · intro h
    rw [alignTextToAsr, if_pos h]
  · intro h
    rcases h with h | h | h
    · rw [alignTextToWords, if_pos (Or.inl h)]
    · rw [alignTextToWords, if_pos (Or.inr h)]
    · rw [alignTextToWords]
      by_cases hg : segs = [] ∨ words = []
      · rw [if_pos hg]
      · rw [if_neg hg]
        have hf : wordsNormOf words = [] := by
          have hfil : filteredWordsOf words = [] := by
            rw [filteredWordsOf, List.filter_eq_nil_iff]
            intro w hw
            simp [h w (mem_sortByKey.mp hw)]
          rw [wordsNormOf, hfil, List.map_nil]
        rw [if_pos hf]

/-- Witness for C9 at concrete inputs: a non-empty text-segment list against
an empty consolidated stream, and against a word list whose single word
normalizes to the empty string. -/
theorem c9_empty_degrades_witness :
    (([⟨"s1", ['a']⟩] : List TextSeg) = [] ∨ ([] : List AsrSeg) = []) ∧
    alignTextToAsr [⟨"s1", ['a']⟩] [] ⟨120, 30, 11/20, 0, 20, 400, false⟩ =
      [⟨⟨"s1", ['a']⟩, none⟩] ∧
    (∀ w ∈ ([⟨0, 1, ['!', '!']⟩] : List Word), normalize w.word = []) ∧
    alignTextToWords [⟨"s1", ['a']⟩] [⟨0, 1, ['!', '!']⟩]
      ⟨120, 30, 11/20, 0, 20, 400, false⟩ = [⟨⟨"s1", ['a']⟩, none⟩] := by
  refine ⟨Or.inr rfl, ?_, by decide, ?_⟩
  · exact (c9_empty_degrades [⟨"s1", ['a']⟩] [] [] _).1 (Or.inr rfl)
  · exact (c9_empty_degrades [⟨"s1", ['a']⟩] [] [⟨0, 1, ['!', '!']⟩] _).2
      (Or.inr (Or.inr (by decide)))

/-! ## Claim C3 -/

/-- C3: in the merge pass, with a live accumulator `c` and a next span with
non-empty stripped text, the accumulator is flushed and a fresh one started
exactly when `gap > merge_pause_sec` or (`cur_len ≥ min_segment_sec` and
`cur_len + dur > max_segment_sec`, the source's reading of "appending would
exceed `max_segment_sec`", with `dur` the span's own clamped duration);
otherwise the span's text is joined onto the accumulator (which is then
either kept open or — the eager rule of C1 — flushed with the joined text). -/
theorem c3_merge_break_rule (cfg : AudioConfig) (st : MState) (c : MAcc) (seg : Span)
    (hcur : st.cur = some c) (htext : strip seg.text ≠ []) :
    ((cfg.mergePauseSec < seg.start - c.end_ ∨
        (cfg.minSegmentSec ≤ c.end_ - c.start ∧
          cfg.maxSegmentSec < c.end_ - c.start + max 0 (seg.end_ - seg.start))) →
      mergeStep cfg st seg =
        ⟨some ⟨seg.start, seg.end_, strip seg.text⟩,
          seg.confidence * max 0 (seg.end_ - seg.start),
          max 0 (seg.end_ - seg.start),
          st.merged ++ [flushAcc c st.confSum st.durSum]⟩) ∧
    (¬ (cfg.mergePauseSec < seg.start - c.end_ ∨
        (cfg.minSegmentSec ≤ c.end_ - c.start ∧
          cfg.maxSegmentSec < c.end_ - c.start + max 0 (seg.end_ - seg.start))) →
      ((mergeStep cfg st seg).cur =
          some ⟨c.start, seg.end_, joinText c.text (strip seg.text)⟩ ∧
        (mergeStep cfg st seg).merged = st.merged) ∨
      ((mergeStep cfg st seg).cur = none ∧
        (mergeStep cfg st seg).merged = st.merged ++
          [⟨c.start, seg.end_, joinText c.text (strip seg.text),
            (st.confSum + seg.confidence * max 0 (seg.end_ - seg.start)) /
              max (1/1000) (st.durSum + max 0 (seg.end_ - seg.start))⟩])) := by
  constructor
  · intro hbr
    simp only [mergeStep, hcur]
    rw [if_neg htext, if_pos hbr]
  · intro hbr
    simp only [mergeStep, hcur]
    rw [if_neg htext, if_neg hbr]
    by_cases he : isSentenceEnd (strip seg.text) ∧ cfg.minSegmentSec ≤ seg.end_ - c.start
    · right
      rw [if_pos he]
      exact ⟨rfl, rfl⟩
    · left
      rw [if_neg he]
      exact ⟨rfl, rfl⟩

/-- Witness for C3: a 1-second gap exceeding `merge_pause_sec = 0.6` forces a
break; the old accumulator is flushed with its duration-weighted confidence
`1.8 / 2 = 0.9` and a fresh accumulator starts at the new span. -/
theorem c3_merge_break_rule_witness :
    mergeStep ⟨1, 30, 6/10⟩ ⟨some ⟨0, 2, ['あ']⟩, 18/10, 2, []⟩ ⟨3, 4, ['次'], 9/10⟩ =
      ⟨some ⟨3, 4, strip ['次']⟩, (9/10) * max 0 ((4 : ℚ) - 3), max 0 ((4 : ℚ) - 3),
        [] ++ [flushAcc ⟨0, 2, ['あ']⟩ (18/10) 2]⟩ :=
  (c3_merge_break_rule ⟨1, 30, 6/10⟩ ⟨some ⟨0, 2, ['あ']⟩, 18/10, 2, []⟩
    ⟨0, 2, ['あ']⟩ ⟨3, 4, ['次'], 9/10⟩ rfl (by decide)).1 (by with_unfolding_all decide)

/-! ## Claim C1 -/

/-- C1 (code bug): the claim (and the spec) say the accumulator is flushed
eagerly when the appended text ends at a sentence-final punctuation mark
(tolerating trailing closing quotes) and the accumulator meets
`min_segment_sec`.  The source's raw-string regex
`[。！？.!?]+["'”’」’]?\\s*$` instead demands a literal backslash (see
`isSentenceEnd`), so `_is_sentence_end("次。")` is `False` and the eager flush
never fires on ordinary text.  On the three spans below (gaps `0.1 ≤ 0.6`,
accumulator length `4 ≥ min_segment_sec = 1` after the second span, whose
text ends with `。`), the claim predicts a flush after the second span and
hence two output segments; the code merges everything into one. -/
theorem c1_eager_flush_failing_input :
    isSentenceEnd ['次', '。'] = false ∧
    isSentenceEnd ['次', '。', '\\'] = true ∧
    (mergeAsrSegments
      [⟨0, 2, ['あ', 'る', '。'], 9/10⟩, ⟨21/10, 4, ['次', '。'], 9/10⟩,
       ⟨42/10, 6, ['ま', 'だ'], 9/10⟩] ⟨1, 30, 6/10⟩).map Span.text =
      [['あ', 'る', '。', '次', '。', 'ま', 'だ']] := by
  refine ⟨by decide, by decide, by with_unfolding_all decide⟩

/-! ## Claim C5 -/

/-- C5: when the best match found for a text segment scores below
`min_score`, the emitted record has `aligned = false` and carries the best
score (rounded to four decimals, as the source stores it) as `match_score`,
and the cursor for the next segment advances by exactly `advance_on_miss`
units clamped to the unit-array length — in particular `advance_on_miss = 0`
leaves the cursor unchanged.  Stated for both the word-stream and the
segment-stream modes. -/
theorem c5_miss_advance :
    (∀ (words : List Word) (wordsNorm : List (List Char)) (cfgA : AlignmentConfig)
        (offIdx : ℕ) (s : TextSeg) (rest : List TextSeg) (idx cursor : ℕ) (m : BMatch),
      ¬ idx < offIdx →
      bestMatchWords s.text words wordsNorm cursor (max 1 cfgA.searchWindow).toNat
          (max 1 cfgA.maxCombine).toNat = some m →
      m.score < cfgA.minScore →
      awGo words wordsNorm cfgA offIdx (s :: rest) idx cursor =
        missRow s (some m) :: awGo words wordsNorm cfgA offIdx rest (idx + 1)
          (if (max 0 cfgA.advanceOnMiss).toNat = 0 then cursor
            else min wordsNorm.length (cursor + (max 0 cfgA.advanceOnMiss).toNat)) ∧
      (missRow s (some m)).info.map AInfo.aligned = some false ∧
      (missRow s (some m)).info.map AInfo.matchScore = some (round4 m.score)) ∧
    (∀ (asr : List AsrSeg) (cfgA : AlignmentConfig) (s : TextSeg)
        (rest : List TextSeg) (cursor : ℕ) (m : BMatch),
      bestMatchSegments s.text asr cursor (max 1 cfgA.searchWindow).toNat
          (max 1 cfgA.maxCombine).toNat = some m →
      m.score < cfgA.minScore →
      asGo asr cfgA (s :: rest) cursor =
        missRow s (some m) :: asGo asr cfgA rest
          (if (max 0 cfgA.advanceOnMiss).toNat = 0 then cursor
            else min asr.length (cursor + (max 0 cfgA.advanceOnMiss).toNat))) := by
  constructor
  · intro words wordsNorm cfgA offIdx s rest idx cursor m hoff hbm hsc
    refine ⟨?_, rfl, rfl⟩
    simp only [awGo, if_neg hoff, hbm]
    rw [if_neg (not_le.mpr hsc)]
  · intro asr cfgA s rest cursor m hbm hsc
    simp only [asGo, hbm]
    rw [if_neg (not_le.mpr hsc)]

/-- Witness for C5: a text segment with no lexical overlap against the
searched window (best score `0 < min_score = 0.55`), `advance_on_miss = 2`
clamping the cursor to the one-element unit array, in both modes. -/
theorem c5_miss_advance_witness :
    bestMatchWords ['x', 'y', 'z'] [⟨0, 1, ['a', 'b', 'c']⟩] [['a', 'b', 'c']] 0
        (max 1 (120 : ℤ)).toNat (max 1 (30 : ℤ)).toNat =
      some ⟨0, 0, 0, ['a', 'b', 'c']⟩ ∧
    ((0 : ℚ) < 11/20) ∧
    awGo [⟨0, 1, ['a', 'b', 'c']⟩] [['a', 'b', 'c']] ⟨120, 30, 11/20, 2, 20, 400, false⟩
        0 [⟨"s1", ['x', 'y', 'z']⟩] 0 0 =
      [missRow ⟨"s1", ['x', 'y', 'z']⟩ (some ⟨0, 0, 0, ['a', 'b', 'c']⟩)] ∧
    asGo [⟨0, 1, ['a', 'b', 'c']⟩] ⟨120, 30, 11/20, 2, 20, 400, false⟩
        [⟨"s1", ['x', 'y', 'z']⟩] 0 =
      [missRow ⟨"s1", ['x', 'y', 'z']⟩ (some ⟨0, 0, 0, ['a', 'b', 'c']⟩)] := by
  refine ⟨by with_unfolding_all decide, by with_unfolding_all decide, ?_, ?_⟩
  · have h := (c5_miss_advance.1 [⟨0, 1, ['a', 'b', 'c']⟩] [['a', 'b', 'c']]
      ⟨120, 30, 11/20, 2, 20, 400, false⟩ 0 ⟨"s1", ['x', 'y', 'z']⟩ [] 0 0
      ⟨0, 0, 0, ['a', 'b', 'c']⟩ (by omega) (by with_unfolding_all decide)
      (by with_unfolding_all decide)).1
    rw [h]
    with_unfolding_all rfl
  · have h := c5_miss_advance.2 [⟨0, 1, ['a', 'b', 'c']⟩]
      ⟨120, 30, 11/20, 2, 20, 400, false⟩ ⟨"s1", ['x', 'y', 'z']⟩ [] 0
      ⟨0, 0, 0, ['a', 'b', 'c']⟩ (by with_unfolding_all decide)
      (by with_unfolding_all decide)
    rw [h]
    with_unfolding_all rfl

/-! ## Claim C7 -/

theorem ftoGo_le (segs : List TextSeg) (ws : ℕ) (an : List Char) :
    ∀ (l : List ℕ) (best : ℕ × ℚ), 0 ≤ best.2 →
      0 ≤ (ftoGo segs ws an l best).2 ∧
      best.2 ≤ (ftoGo segs ws an l best).2 ∧
      ∀ i ∈ l, windowScore segs ws an i ≤ (ftoGo segs ws an l best).2 := by
  intro l
  induction l with
  | nil => intro best h0; exact ⟨h0, le_refl _, by simp⟩
  | cons i rest ih =>
    intro best h0
    by_cases hwn : normalize (((segs.drop i).take ws).map TextSeg.text).flatten = []
    · have hstep : ftoGo segs ws an (i :: rest) best = ftoGo segs ws an rest best := by
        simp only [ftoGo, if_pos hwn]
      obtain ⟨hr0, hrb, hrm⟩ := ih best h0
      rw [hstep]
      refine ⟨hr0, hrb, ?_⟩
      intro j hj
      rcases List.mem_cons.1 hj with rfl | hj
      · rw [windowScore, hwn, similarity_nil_left]
        exact hr0
      · exact hrm j hj
    · by_cases hlt : best.2 <
        similarity (normalize (((segs.drop i).take ws).map TextSeg.text).flatten) an
      · have hstep : ftoGo segs ws an (i :: rest) best =
            ftoGo segs ws an rest
              (i, similarity (normalize (((segs.drop i).take ws).map TextSeg.text).flatten) an) := by
          simp only [ftoGo, if_neg hwn, if_pos hlt]
        obtain ⟨hr0, hrb, hrm⟩ := ih
          (i, similarity (normalize (((segs.drop i).take ws).map TextSeg.text).flatten) an)
          (similarity_nonneg _ _)
        rw [hstep]
        refine ⟨hr0, le_trans (le_of_lt hlt) hrb, ?_⟩
        intro j hj
        rcases List.mem_cons.1 hj with rfl | hj
        · exact le_trans (le_of_eq rfl) hrb
        · exact hrm j hj
      · have hstep : ftoGo segs ws an (i :: rest) best = ftoGo segs ws an rest best := by
          simp only [ftoGo, if_neg hwn, if_neg hlt]
        obtain ⟨hr0, hrb, hrm⟩ := ih best h0
        rw [hstep]
        refine ⟨hr0, hrb, ?_⟩
        intro j hj
        rcases List.mem_cons.1 hj with rfl | hj
        · exact le_trans (not_lt.1 hlt) hrb
        · exact hrm j hj

theorem ftoGo_attains (segs : List TextSeg) (ws : ℕ) (an : List Char) :
    ∀ (l : List ℕ) (best : ℕ × ℚ),
      (best.2 = windowScore segs ws an best.1 ∨ (best.1 = 0 ∧ best.2 = 0)) →
      ((ftoGo segs ws an l best).2 =
          windowScore segs ws an (ftoGo segs ws an l best).1 ∨
        ((ftoGo segs ws an l best).1 = 0 ∧ (ftoGo segs ws an l best).2 = 0)) := by
  intro l
  induction l with
  | nil => intro best h; exact h
  | cons i rest ih =>
    intro best h
    by_cases hwn : normalize (((segs.drop i).take ws).map TextSeg.text).flatten = []
    · have hstep : ftoGo segs ws an (i :: rest) best = ftoGo segs ws an rest best := by
        simp only [ftoGo, if_pos hwn]
      rw [hstep]; exact ih best h
    · by_cases hlt : best.2 <
        similarity (normalize (((segs.drop i).take ws).map TextSeg.text).flatten) an
      · have hstep : ftoGo segs ws an (i :: rest) best =
            ftoGo segs ws an rest
              (i, similarity (normalize (((segs.drop i).take ws).map TextSeg.text).flatten) an) := by
          simp only [ftoGo, if_neg hwn, if_pos hlt]
        rw [hstep]
        exact ih _ (Or.inl rfl)
      · have hstep : ftoGo segs ws an (i :: rest) best = ftoGo segs ws an rest best := by
          simp only [ftoGo, if_neg hwn, if_neg hlt]
        rw [hstep]; exact ih best h

theorem windowScore_nonneg (segs : List TextSeg) (ws : ℕ) (an : List Char) (i : ℕ) :
    0 ≤ windowScore segs ws an i := similarity_nonneg _ _

theorem awGo_stub (words : List Word) (wn : List (List Char)) (cfgA : AlignmentConfig)
    (offIdx : ℕ) :
    ∀ (segs : List TextSeg) (idx cursor k : ℕ), idx + k < offIdx →
      (awGo words wn cfgA offIdx segs idx cursor)[k]? = (segs[k]?).map offStub := by
  intro segs
  induction segs with
  | nil => intro idx cursor k h; simp [awGo]
  | cons s rest ih =>
    intro idx cursor k h
    have hidx : idx < offIdx := by omega
    simp only [awGo, if_pos hidx]
    cases k with
    | zero => simp
    | succ k =>
      simp only [List.getElem?_cons_succ]
      exact ih (idx + 1) cursor k (by omega)

/-- C7: the word-mode aligner's global offset pass scores, for every valid
starting text index, the normalized window of `offset_window_segments`
consecutive text segments against the first `offset_search_words` normalized
recognized words joined, and keeps a highest-scoring index (the returned
score equals that index's window score, and every valid index scores no
higher); every text segment strictly below the offset index is emitted as
the fixed unaligned stub (`aligned = false`, `match_score = 0`) with no
per-segment matching performed for it. -/
theorem c7_offset_scan :
    (∀ (segs : List TextSeg) (wordsNorm : List (List Char)) (cfgA : AlignmentConfig),
      (findTextOffset segs wordsNorm cfgA).2 =
        windowScore segs (max 1 cfgA.offsetWindowSegments).toNat
          (wordsNorm.take (max 1 cfgA.offsetSearchWords).toNat).flatten
          (findTextOffset segs wordsNorm cfgA).1 ∧
      ∀ i < segs.length - (max 1 cfgA.offsetWindowSegments).toNat + 1,
        windowScore segs (max 1 cfgA.offsetWindowSegments).toNat
          (wordsNorm.take (max 1 cfgA.offsetSearchWords).toNat).flatten i ≤
          (findTextOffset segs wordsNorm cfgA).2) ∧
    (∀ (segs : List TextSeg) (words : List Word) (cfgA : AlignmentConfig) (k : ℕ),
      segs ≠ [] → words ≠ [] → wordsNormOf words ≠ [] →
      k < (findTextOffset segs (wordsNormOf words) cfgA).1 →
      (alignTextToWords segs words cfgA)[k]? = (segs[k]?).map offStub) := by
  constructor
  · intro segs wordsNorm cfgA
    by_cases hg : segs = [] ∨ wordsNorm = []
    · have hfto : findTextOffset segs wordsNorm cfgA = (0, 0) := by
        rw [findTextOffset, if_pos hg]
      rw [hfto]
      have hws0 : ∀ i, windowScore segs (max 1 cfgA.offsetWindowSegments).toNat
          (wordsNorm.take (max 1 cfgA.offsetSearchWords).toNat).flatten i = 0 := by
        intro i
        rcases hg with hg | hg
        · simp [windowScore, hg, normalize, similarity]
        · simp only [hg, List.take_nil, List.flatten_nil]
          exact similarity_nil_right _
      constructor
      · exact (hws0 _).symm
      · intro i hi; exact le_of_eq (hws0 i)
    · rw [findTextOffset, if_neg hg]
      by_cases han : (wordsNorm.take (max 1 cfgA.offsetSearchWords).toNat).flatten = []
      · rw [if_pos han]
        constructor
        · rw [han, windowScore, similarity_nil_right]
        · intro i hi
          rw [han, windowScore, similarity_nil_right]
      · rw [if_neg han]
        have hle := ftoGo_le segs (max 1 cfgA.offsetWindowSegments).toNat
          (wordsNorm.take (max 1 cfgA.offsetSearchWords).toNat).flatten
          (List.range (segs.length - (max 1 cfgA.offsetWindowSegments).toNat + 1))
          (0, 0) (le_refl 0)
        have hat := ftoGo_attains segs (max 1 cfgA.offsetWindowSegments).toNat
          (wordsNorm.take (max 1 cfgA.offsetSearchWords).toNat).flatten
          (List.range (segs.length - (max 1 cfgA.offsetWindowSegments).toNat + 1))
          (0, 0) (Or.inr ⟨rfl, rfl⟩)
        constructor
        · rcases hat with hat | ⟨h1, h2⟩
          · exact hat
          · rw [h1, h2]
            have h0mem : (0 : ℕ) ∈
                List.range (segs.length - (max 1 cfgA.offsetWindowSegments).toNat + 1) :=
              List.mem_range.2 (by omega)
            have hle0 := hle.2.2 0 h0mem
            rw [h2] at hle0
            exact (le_antisymm hle0 (windowScore_nonneg _ _ _ _)).symm
        · intro i hi
          exact hle.2.2 i (List.mem_range.2 hi)
  · intro segs words cfgA k hs hw hwn hk
    rw [alignTextToWords, if_neg (by simp [hs, hw]), if_neg hwn]
    exact awGo_stub _ _ _ _ segs 0 0 k (by omega)

/-- Witness for C7: two text segments against the single recognized word
`hello`; the offset scan picks index 1 (score 1 beats the 0 of index 0), and
the segment below it is emitted as the unaligned stub. -/
theorem c7_offset_scan_witness :
    (findTextOffset [⟨"a", ['z', 'z', 'z']⟩, ⟨"b", ['h', 'e', 'l', 'l', 'o']⟩]
        (wordsNormOf [⟨0, 1, ['h', 'e', 'l', 'l', 'o']⟩]) ⟨120, 30, 11/20, 0, 1, 400, false⟩).1 = 1 ∧
    windowScore [⟨"a", ['z', 'z', 'z']⟩, ⟨"b", ['h', 'e', 'l', 'l', 'o']⟩]
        (max 1 (1 : ℤ)).toNat
        ((wordsNormOf [⟨0, 1, ['h', 'e', 'l', 'l', 'o']⟩]).take (max 1 (400 : ℤ)).toNat).flatten 0 ≤
      (findTextOffset [⟨"a", ['z', 'z', 'z']⟩, ⟨"b", ['h', 'e', 'l', 'l', 'o']⟩]
        (wordsNormOf [⟨0, 1, ['h', 'e', 'l', 'l', 'o']⟩]) ⟨120, 30, 11/20, 0, 1, 400, false⟩).2 ∧
    (alignTextToWords [⟨"a", ['z', 'z', 'z']⟩, ⟨"b", ['h', 'e', 'l', 'l', 'o']⟩]
        [⟨0, 1, ['h', 'e', 'l', 'l', 'o']⟩] ⟨120, 30, 11/20, 0, 1, 400, false⟩)[0]? =
      some (offStub ⟨"a", ['z', 'z', 'z']⟩) := by
  refine ⟨by with_unfolding_all decide, ?_, ?_⟩
  · exact (c7_offset_scan.1 [⟨"a", ['z', 'z', 'z']⟩, ⟨"b", ['h', 'e', 'l', 'l', 'o']⟩]
      (wordsNormOf [⟨0, 1, ['h', 'e', 'l', 'l', 'o']⟩])
      ⟨120, 30, 11/20, 0, 1, 400, false⟩).2 0 (by with_unfolding_all decide)
  · have h := c7_offset_scan.2 [⟨"a", ['z', 'z', 'z']⟩, ⟨"b", ['h', 'e', 'l', 'l', 'o']⟩]
      [⟨0, 1, ['h', 'e', 'l', 'l', 'o']⟩] ⟨120, 30, 11/20, 0, 1, 400, false⟩ 0
      (by decide) (by decide) (by with_unfolding_all decide)
      (by with_unfolding_all decide)
    rw [h]
    rfl

/-! ## Claim C6 -/

theorem mem_range'_ge {s n j : ℕ} (h : j ∈ List.range' s n) : s ≤ j := by
  rcases List.mem_range'.1 h with ⟨i, hi, rfl⟩
  omega

theorem updBest_bound {cursor : ℕ} {best : Option BMatch} {m2 : BMatch}
    (hb : ∀ m, best = some m → cursor ≤ m.i ∧ m.i ≤ m.j)
    (hm : cursor ≤ m2.i ∧ m2.i ≤ m2.j) :
    ∀ m, updBest best m2 = some m → cursor ≤ m.i ∧ m.i ≤ m.j := by
  intro m h
  cases best with
  | none =>
    simp only [updBest, Option.some.injEq] at h
    exact h ▸ hm
  | some b =>
    simp only [updBest] at h
    by_cases hsc : b.score < m2.score
    · rw [if_pos hsc, Option.some.injEq] at h
      exact h ▸ hm
    · rw [if_neg hsc, Option.some.injEq] at h
      exact h ▸ hb b rfl

theorem bmwInner_bound (normText : List Char) (words : List Word)
    (wn : List (List Char)) (i cursor : ℕ) (hi : cursor ≤ i) :
    ∀ (js : List ℕ) (combined : List Char) (best : Option BMatch),
      (∀ j ∈ js, i ≤ j) →
      (∀ m, best = some m → cursor ≤ m.i ∧ m.i ≤ m.j) →
      ∀ m, (bmwInner normText words wn i js combined best).1 = some m →
        cursor ≤ m.i ∧ m.i ≤ m.j := by
  intro js
  induction js with
  | nil => intro combined best hjs hb m h; exact hb m h
  | cons j rest ih =>
    intro combined best hjs hb m h
    have hbest2 : ∀ m2, updBest best ⟨i, j, similarity normText (combined ++ wn.getD j []),
        rawJoinW words i j⟩ = some m2 → cursor ≤ m2.i ∧ m2.i ≤ m2.j :=
      updBest_bound hb ⟨hi, hjs j (List.mem_cons_self _ _)⟩
    simp only [bmwInner] at h
    by_cases hsc : (98/100 : ℚ) ≤ similarity normText (combined ++ wn.getD j [])
    · rw [if_pos hsc] at h
      exact hbest2 m h
    · rw [if_neg hsc] at h
      exact ih _ _ (fun j2 hj2 => hjs j2 (List.mem_cons_of_mem _ hj2)) hbest2 m h

theorem bmwOuter_bound (normText : List Char) (words : List Word)
    (wn : List (List Char)) (endLimit maxWords cursor : ℕ) :
    ∀ (idxs : List ℕ) (best : Option BMatch),
      (∀ i ∈ idxs, cursor ≤ i) →
      (∀ m, best = some m → cursor ≤ m.i ∧ m.i ≤ m.j) →
      ∀ m, bmwOuter normText words wn endLimit maxWords idxs best = some m →
        cursor ≤ m.i ∧ m.i ≤ m.j := by
  intro idxs
  induction idxs with
  | nil => intro best hmem hb m h; exact hb m h
  | cons i rest ih =>
    intro best hmem hb m h
    simp only [bmwOuter] at h
    have hinner := bmwInner_bound normText words wn i cursor
      (hmem i (List.mem_cons_self _ _))
      (List.range' i (min endLimit (i + maxWords) - i)) [] best
      (fun j hj => mem_range'_ge hj) hb
    by_cases hearly : (bmwInner normText words wn i
        (List.range' i (min endLimit (i + maxWords) - i)) [] best).2 = true
    · rw [if_pos hearly] at h
      exact hinner m h
    · rw [if_neg hearly] at h
      exact ih _ (fun i2 hi2 => hmem i2 (List.mem_cons_of_mem _ hi2)) hinner m h

theorem bestMatchWords_bound {text : List Char} {words : List Word}
    {wn : List (List Char)} {cursor sw mw : ℕ} {m : BMatch}
    (h : bestMatchWords text words wn cursor sw mw = some m) :
    cursor ≤ m.i ∧ m.i ≤ m.j := by
  simp only [bestMatchWords] at h
  by_cases h1 : wn.length ≤ cursor
  · rw [if_pos h1] at h; cases h
  · rw [if_neg h1] at h
    by_cases h2 : normalize text = []
    · rw [if_pos h2] at h; cases h
    · rw [if_neg h2] at h
      exact bmwOuter_bound _ _ _ _ _ cursor _ none
        (fun i hi => mem_range'_ge hi) (fun m2 hm2 => by cases hm2) m h

theorem bmsInner_bound (normText : List Char) (segs : List AsrSeg)
    (i cursor : ℕ) (hi : cursor ≤ i) :
    ∀ (js : List ℕ) (combined : List Char) (best : Option BMatch),
      (∀ j ∈ js, i ≤ j) →
      (∀ m, best = some m → cursor ≤ m.i ∧ m.i ≤ m.j) →
      ∀ m, (bmsInner normText segs i js combined best).1 = some m →
        cursor ≤ m.i ∧ m.i ≤ m.j := by
  intro js
  induction js with
  | nil => intro combined best hjs hb m h; exact hb m h
  | cons j rest ih =>
    intro combined best hjs hb m h
    have hbest2 : ∀ m2, updBest best ⟨i, j,
        similarity normText (normalize (combined ++ (segs.getD j ⟨0, 0, []⟩).text)),
        combined ++ (segs.getD j ⟨0, 0, []⟩).text⟩ = some m2 →
        cursor ≤ m2.i ∧ m2.i ≤ m2.j :=
      updBest_bound hb ⟨hi, hjs j (List.mem_cons_self _ _)⟩
    simp only [bmsInner] at h
    by_cases hsc : (98/100 : ℚ) ≤
        similarity normText (normalize (combined ++ (segs.getD j ⟨0, 0, []⟩).text))
    · rw [if_pos hsc] at h
      exact hbest2 m h
    · rw [if_neg hsc] at h
      exact ih _ _ (fun j2 hj2 => hjs j2 (List.mem_cons_of_mem _ hj2)) hbest2 m h

theorem bmsOuter_bound (normText : List Char) (segs : List AsrSeg)
    (endLimit maxCombine cursor : ℕ) :
    ∀ (idxs : List ℕ) (best : Option BMatch),
      (∀ i ∈ idxs, cursor ≤ i) →
      (∀ m, best = some m → cursor ≤ m.i ∧ m.i ≤ m.j) →
      ∀ m, bmsOuter normText segs endLimit maxCombine idxs best = some m →
        cursor ≤ m.i ∧ m.i ≤ m.j := by
  intro idxs
  induction idxs with
  | nil => intro best hmem hb m h; exact hb m h
  | cons i rest ih =>
    intro best hmem hb m h
    simp only [bmsOuter] at h
    have hinner := bmsInner_bound normText segs i cursor
      (hmem i (List.mem_cons_self _ _))
      (List.range' i (min endLimit (i + maxCombine) - i)) [] best
      (fun j hj => mem_range'_ge hj) hb
    by_cases hearly : (bmsInner normText segs i
        (List.range' i (min endLimit (i + maxCombine) - i)) [] best).2 = true
    · rw [if_pos hearly] at h
      exact hinner m h
    · rw [if_neg hearly] at h
      exact ih _ (fun i2 hi2 => hmem i2 (List.mem_cons_of_mem _ hi2)) hinner m h

theorem bestMatchSegments_bound {text : List Char} {segs : List AsrSeg}
    {cursor sw mc : ℕ} {m : BMatch}
    (h : bestMatchSegments text segs cursor sw mc = some m) :
    cursor ≤ m.i ∧ m.i ≤ m.j := by
  simp only [bestMatchSegments] at h
  by_cases h1 : segs.length ≤ cursor
  · rw [if_pos h1] at h; cases h
  · rw [if_neg h1] at h
    by_cases h2 : normalize text = []
    · rw [if_pos h2] at h; cases h
    · rw [if_neg h2] at h
      exact bmsOuter_bound _ _ _ _ cursor _ none
        (fun i hi => mem_range'_ge hi) (fun m2 hm2 => by cases hm2) m h

theorem awGo_mono (words : List Word) (wn : List (List Char))
    (cfgA : AlignmentConfig) (offIdx : ℕ) :
    ∀ (segs : List TextSeg) (idx cursor : ℕ),
      (∀ r ∈ awGo words wn cfgA offIdx segs idx cursor,
        r.info.map AInfo.aligned = some true) →
      List.Chain' (· ≤ ·) ((awGo words wn cfgA offIdx segs idx cursor).map rowStartIdx) ∧
      ∀ r ∈ awGo words wn cfgA offIdx segs idx cursor, (cursor : ℤ) ≤ rowStartIdx r := by
  intro segs
  induction segs with
  | nil => intro idx cursor h; exact ⟨by simp [awGo], by simp [awGo]⟩
  | cons s rest ih =>
    intro idx cursor h
    by_cases hoff : idx < offIdx
    · have hstep : awGo words wn cfgA offIdx (s :: rest) idx cursor =
          offStub s :: awGo words wn cfgA offIdx rest (idx + 1) cursor := by
        simp only [awGo, if_pos hoff]
      rw [hstep] at h
      have hhd := h (offStub s) (List.mem_cons_self _ _)
      simp [offStub] at hhd
    · cases hbm : bestMatchWords s.text words wn cursor
        (max 1 cfgA.searchWindow).toNat (max 1 cfgA.maxCombine).toNat with
      | none =>
        have hstep : awGo words wn cfgA offIdx (s :: rest) idx cursor =
            missRow s none :: awGo words wn cfgA offIdx rest (idx + 1)
              (if (max 0 cfgA.advanceOnMiss).toNat = 0 then cursor
                else min wn.length (cursor + (max 0 cfgA.advanceOnMiss).toNat)) := by
          simp only [awGo, if_neg hoff, hbm]
        rw [hstep] at h
        have hhd := h (missRow s none) (List.mem_cons_self _ _)
        simp [missRow] at hhd
      | some m =>
        by_cases hsc : cfgA.minScore ≤ m.score
        · have hstep : awGo words wn cfgA offIdx (s :: rest) idx cursor =
              hitRowW s m words ::
                awGo words wn cfgA offIdx rest (idx + 1) (m.j + 1) := by
            simp only [awGo, if_neg hoff, hbm]
            rw [if_pos hsc]
          rw [hstep] at h
          obtain ⟨ihc, ihm⟩ := ih (idx + 1) (m.j + 1)
            (fun r hr => h r (List.mem_cons_of_mem _ hr))
          have hb := bestMatchWords_bound hbm
          have hhit : rowStartIdx (hitRowW s m words) = (m.i : ℤ) := rfl
          rw [hstep]
          constructor
          · rw [List.map_cons]
            cases hlist : awGo words wn cfgA offIdx rest (idx + 1) (m.j + 1) with
            | nil => simp
            | cons r0 rs =>
              rw [hlist] at ihc ihm
              rw [List.map_cons]
              refine List.chain'_cons.2 ⟨?_, by rw [← List.map_cons]; exact ihc⟩
              have hr0 := ihm r0 (List.mem_cons_self _ _)
              rw [hhit]
              omega
          · intro r hr
            rcases List.mem_cons.1 hr with rfl | hr
            · rw [hhit]
              exact_mod_cast hb.1
            · have hr2 := ihm r hr
              have h1 := hb.1
              have h2 := hb.2
              omega
        · have hstep : awGo words wn cfgA offIdx (s :: rest) idx cursor =
              missRow s (some m) :: awGo words wn cfgA offIdx rest (idx + 1)
                (if (max 0 cfgA.advanceOnMiss).toNat = 0 then cursor
                  else min wn.length (cursor + (max 0 cfgA.advanceOnMiss).toNat)) := by
            simp only [awGo, if_neg hoff, hbm]
            rw [if_neg hsc]
          rw [hstep] at h
          have hhd := h (missRow s (some m)) (List.mem_cons_self _ _)
          simp [missRow] at hhd

theorem asGo_mono (asr : List AsrSeg) (cfgA : AlignmentConfig) :
    ∀ (segs : List TextSeg) (cursor : ℕ),
      (∀ r ∈ asGo asr cfgA segs cursor, r.info.map AInfo.aligned = some true) →
      List.Chain' (· ≤ ·) ((asGo asr cfgA segs cursor).map rowStartIdx) ∧
      ∀ r ∈ asGo asr cfgA segs cursor, (cursor : ℤ) ≤ rowStartIdx r := by
  intro segs
  induction segs with
  | nil => intro cursor h; exact ⟨by simp [asGo], by simp [asGo]⟩
  | cons s rest ih =>
    intro cursor h
    cases hbm : bestMatchSegments s.text asr cursor
        (max 1 cfgA.searchWindow).toNat (max 1 cfgA.maxCombine).toNat with
    | none =>
      have hstep : asGo asr cfgA (s :: rest) cursor =
          missRow s none :: asGo asr cfgA rest
            (if (max 0 cfgA.advanceOnMiss).toNat = 0 then cursor
              else min asr.length (cursor + (max 0 cfgA.advanceOnMiss).toNat)) := by
        simp only [asGo, hbm]
      rw [hstep] at h
      have hhd := h (missRow s none) (List.mem_cons_self _ _)
      simp [missRow] at hhd
    | some m =>
      by_cases hsc : cfgA.minScore ≤ m.score
      · have hstep : asGo asr cfgA (s :: rest) cursor =
            hitRowS s m asr :: asGo asr cfgA rest (m.j + 1) := by
          simp only [asGo, hbm]
          rw [if_pos hsc]
        rw [hstep] at h
        obtain ⟨ihc, ihm⟩ := ih (m.j + 1) (fun r hr => h r (List.mem_cons_of_mem _ hr))
        have hb := bestMatchSegments_bound hbm
        have hhit : rowStartIdx (hitRowS s m asr) = (m.i : ℤ) := rfl
        rw [hstep]
        constructor
        · rw [List.map_cons]
          cases hlist : asGo asr cfgA rest (m.j + 1) with
          | nil => simp
          | cons r0 rs =>
            rw [hlist] at ihc ihm
            rw [List.map_cons]
            refine List.chain'_cons.2 ⟨?_, by rw [← List.map_cons]; exact ihc⟩
            have hr0 := ihm r0 (List.mem_cons_self _ _)
            rw [hhit]
            omega
        · intro r hr
          rcases List.mem_cons.1 hr with rfl | hr
          · rw [hhit]
            exact_mod_cast hb.1
          · have hr2 := ihm r hr
            have h1 := hb.1
            have h2 := hb.2
            omega
      · have hstep : asGo asr cfgA (s :: rest) cursor =
            missRow s (some m) :: asGo asr cfgA rest
              (if (max 0 cfgA.advanceOnMiss).toNat = 0 then cursor
                else min asr.length (cursor + (max 0 cfgA.advanceOnMiss).toNat)) := by
          simp only [asGo, hbm]
          rw [if_neg hsc]
        rw [hstep] at h
        have hhd := h (missRow s (some m)) (List.mem_cons_self _ _)
        simp [missRow] at hhd

/-- C6: when every emitted record of an aligner run is `aligned = true`, the
sequence of emitted start indices (`word_start_idx` in word mode,
`asr_start_idx` in segment mode) is non-decreasing, because each search
starts at the cursor `previous end index + 1`. -/
theorem c6_aligned_monotone (segs : List TextSeg) (words : List Word)
    (asr : List AsrSeg) (cfgA : AlignmentConfig) :
    ((∀ r ∈ alignTextToWords segs words cfgA, r.info.map AInfo.aligned = some true) →
      List.Chain' (· ≤ ·) ((alignTextToWords segs words cfgA).map rowStartIdx)) ∧
    ((∀ r ∈ alignTextToAsr segs asr cfgA, r.info.map AInfo.aligned = some true) →
      List.Chain' (· ≤ ·) ((alignTextToAsr segs asr cfgA).map rowStartIdx)) := by
  constructor
  · intro h
    rw [alignTextToWords] at h ⊢
    by_cases hg : segs = [] ∨ words = []
    · rw [if_pos hg] at h ⊢
      cases segs with
      | nil => simp
      | cons s ss =>
        have := h ⟨s, none⟩ (by simp)
        simp at this
    · rw [if_neg hg] at h ⊢
      by_cases hwn : wordsNormOf words = []
      · rw [if_pos hwn] at h ⊢
        cases segs with
        | nil => simp
        | cons s ss =>
          have := h ⟨s, none⟩ (by simp)
          simp at this
      · rw [if_neg hwn] at h ⊢
        exact (awGo_mono _ _ _ _ segs 0 0 h).1
  · intro h
    rw [alignTextToAsr] at h ⊢
    by_cases hg : segs = [] ∨ asr = []
    · rw [if_pos hg] at h ⊢
      cases segs with
      | nil => simp
      | cons s ss =>
        have := h ⟨s, none⟩ (by simp)
        simp at this
    · rw [if_neg hg] at h ⊢
      exact (asGo_mono _ _ segs 0 h).1

/-- Witness for C6: two text segments aligning perfectly (score 1) against
two words, and against two consolidated segments; all records aligned and the
emitted index sequence `[0, 1]` is a `≤`-chain, in both modes. -/
theorem c6_aligned_monotone_witness :
    (∀ r ∈ alignTextToWords
        [⟨"s1", ['h', 'e', 'l', 'l', 'o']⟩, ⟨"s2", ['w', 'o', 'r', 'l', 'd']⟩]
        [⟨0, 1, ['h', 'e', 'l', 'l', 'o']⟩, ⟨1, 2, ['w', 'o', 'r', 'l', 'd']⟩]
        ⟨120, 30, 11/20, 0, 20, 400, false⟩,
      r.info.map AInfo.aligned = some true) ∧
    List.Chain' (· ≤ ·) ((alignTextToWords
        [⟨"s1", ['h', 'e', 'l', 'l', 'o']⟩, ⟨"s2", ['w', 'o', 'r', 'l', 'd']⟩]
        [⟨0, 1, ['h', 'e', 'l', 'l', 'o']⟩, ⟨1, 2, ['w', 'o', 'r', 'l', 'd']⟩]
        ⟨120, 30, 11/20, 0, 20, 400, false⟩).map rowStartIdx) ∧
    (∀ r ∈ alignTextToAsr
        [⟨"s1", ['h', 'e', 'l', 'l', 'o']⟩, ⟨"s2", ['w', 'o', 'r', 'l', 'd']⟩]
        [⟨0, 1, ['h', 'e', 'l', 'l', 'o']⟩, ⟨1, 2, ['w', 'o', 'r', 'l', 'd']⟩]
        ⟨120, 30, 11/20, 0, 20, 400, false⟩,
      r.info.map AInfo.aligned = some true) ∧
    List.Chain' (· ≤ ·) ((alignTextToAsr
        [⟨"s1", ['h', 'e', 'l', 'l', 'o']⟩, ⟨"s2", ['w', 'o', 'r', 'l', 'd']⟩]
        [⟨0, 1, ['h', 'e', 'l', 'l', 'o']⟩, ⟨1, 2, ['w', 'o', 'r', 'l', 'd']⟩]
        ⟨120, 30, 11/20, 0, 20, 400, false⟩).map rowStartIdx) := by
  have h1 : ∀ r ∈ alignTextToWords
      [⟨"s1", ['h', 'e', 'l', 'l', 'o']⟩, ⟨"s2", ['w', 'o', 'r', 'l', 'd']⟩]
      [⟨0, 1, ['h', 'e', 'l', 'l', 'o']⟩, ⟨1, 2, ['w', 'o', 'r', 'l', 'd']⟩]
      ⟨120, 30, 11/20, 0, 20, 400, false⟩,
      r.info.map AInfo.aligned = some true := by with_unfolding_all decide
  have h2 : ∀ r ∈ alignTextToAsr
      [⟨"s1", ['h', 'e', 'l', 'l', 'o']⟩, ⟨"s2", ['w', 'o', 'r', 'l', 'd']⟩]
      [⟨0, 1, ['h', 'e', 'l', 'l', 'o']⟩, ⟨1, 2, ['w', 'o', 'r', 'l', 'd']⟩]
      ⟨120, 30, 11/20, 0, 20, 400, false⟩,
      r.info.map AInfo.aligned = some true := by with_unfolding_all decide
  refine ⟨h1, ?_, h2, ?_⟩
  · exact (c6_aligned_monotone
      [⟨"s1", ['h', 'e', 'l', 'l', 'o']⟩, ⟨"s2", ['w', 'o', 'r', 'l', 'd']⟩]
      [⟨0, 1, ['h', 'e', 'l', 'l', 'o']⟩, ⟨1, 2, ['w', 'o', 'r', 'l', 'd']⟩]
      [⟨0, 1, ['h', 'e', 'l', 'l', 'o']⟩, ⟨1, 2, ['w', 'o', 'r', 'l', 'd']⟩]
      ⟨120, 30, 11/20, 0, 20, 400, false⟩).1 h1
  · exact (c6_aligned_monotone
      [⟨"s1", ['h', 'e', 'l', 'l', 'o']⟩, ⟨"s2", ['w', 'o', 'r', 'l', 'd']⟩]
      [⟨0, 1, ['h', 'e', 'l', 'l', 'o']⟩, ⟨1, 2, ['w', 'o', 'r', 'l', 'd']⟩]
      [⟨0, 1, ['h', 'e', 'l', 'l', 'o']⟩, ⟨1, 2, ['w', 'o', 'r', 'l', 'd']⟩]
      ⟨120, 30, 11/20, 0, 20, 400, false⟩).2 h2

/-! ## Claim C4 -/

theorem scanTurns_zero (s e : ℚ) :
    ∀ (l : List DiarTurn) (st : ℚ × String × ℚ),
      (∀ U ∈ l, overlapQ s e U.start U.end_ = 0) →
      scanTurns s e l st = st := by
  intro l
  induction l with
  | nil => intro st h; rfl
  | cons d rest ih =>
    intro st h
    have hd := h d (List.mem_cons_self _ _)
    simp only [scanTurns]
    by_cases h1 : d.end_ < s
    · rw [if_pos h1]
      exact ih st (fun U hU => h U (List.mem_cons_of_mem _ hU))
    · rw [if_neg h1]
      by_cases h2 : e < d.start
      · rw [if_pos h2]
      · rw [if_neg h2, if_pos (le_of_eq hd)]
        exact ih st (fun U hU => h U (List.mem_cons_of_mem _ hU))

theorem scanTurns_pre (s e : ℚ) (hse : s ≤ e) :
    ∀ (l1 tail : List DiarTurn) (st : ℚ × String × ℚ),
      (∀ U ∈ l1, overlapQ s e U.start U.end_ = 0 ∧ U.start ≤ s) →
      scanTurns s e (l1 ++ tail) st = scanTurns s e tail st := by
  intro l1
  induction l1 with
  | nil => intro tail st h; rfl
  | cons d rest ih =>
    intro tail st h
    have hd := h d (List.mem_cons_self _ _)
    simp only [List.cons_append, scanTurns]
    by_cases h1 : d.end_ < s
    · rw [if_pos h1]
      exact ih tail st (fun U hU => h U (List.mem_cons_of_mem _ hU))
    · rw [if_neg h1, if_neg (not_lt.2 (le_trans hd.2 hse)), if_pos (le_of_eq hd.1)]
      exact ih tail st (fun U hU => h U (List.mem_cons_of_mem _ hU))

/-- Scanning a sorted turn list in which exactly the marked turn `T` overlaps
the segment `[s, e]` and contains it yields `best_overlap = e - s`, the
speaker of `T`, and an `overlap_dur` of `e - s` or `0` according to `T`'s
overlap flag. -/
theorem scanTurns_single (s e : ℚ) (hlt : s < e) (T : DiarTurn)
    (hTs : T.start ≤ s) (hTe : e ≤ T.end_) (l1 l2 : List DiarTurn)
    (h1 : ∀ U ∈ l1, overlapQ s e U.start U.end_ = 0 ∧ U.start ≤ s)
    (h2 : ∀ U ∈ l2, overlapQ s e U.start U.end_ = 0) :
    scanTurns s e (l1 ++ T :: l2) (0, "UNKNOWN", 0) =
      (e - s, T.speaker.getD "UNKNOWN",
        if T.overlap.getD false then e - s else 0) := by
  rw [scanTurns_pre s e (le_of_lt hlt) l1 _ _ h1]
  have hov : overlapQ s e T.start T.end_ = e - s := by
    rw [overlapQ, min_eq_left hTe, max_eq_left hTs,
      max_eq_right (sub_nonneg.2 (le_of_lt hlt))]
  have hne1 : ¬ T.end_ < s := not_lt.2 (le_trans (le_of_lt hlt) hTe)
  have hne2 : ¬ e < T.start := not_lt.2 (le_trans hTs (le_of_lt hlt))
  have hpos : (0 : ℚ) < e - s := sub_pos.2 hlt
  simp only [scanTurns]
  rw [if_neg hne1, if_neg hne2, hov, if_neg (not_le.2 hpos), if_pos hpos]
  rw [scanTurns_zero s e l2 _ h2]
  by_cases hfl : T.overlap.getD false = true
  · rw [if_pos hfl, if_pos hfl, zero_add]
  · rw [if_neg hfl, if_neg hfl]

/-- A segment of duration at least `0.0001` inside its turn clears the
`best_overlap / max(0.001, duration) < 0.1` cut-off. -/
theorem ratio_ge (s e : ℚ) (h : 1/10000 ≤ e - s) :
    ¬ ((e - s) / max (1/1000) (e - s) < 1/10) := by
  have hpos : (0 : ℚ) < max (1/1000) (e - s) :=
    lt_of_lt_of_le (by norm_num) (le_max_left _ _)
  rw [not_lt, le_div_iff₀ hpos]
  rcases le_or_lt (1/1000 : ℚ) (e - s) with hc | hc
  · rw [max_eq_right hc]
    nlinarith
  · rw [max_eq_left (le_of_lt hc)]
    linarith

/-- C4 (amended): for every ASR segment, (a) a best single-turn overlap below
a tenth of the (floored) segment duration forces `speaker = UNKNOWN`;
(b) independently, a flagged-overlap total of at least `overlap_threshold`
of the duration sets `overlap = true` and forces `speaker = UNKNOWN`;
(c) a segment of duration at least `0.0001` s fully contained within a
single non-overlapping turn of a sorted turn list whose other turns do not
touch the segment, with `overlap_threshold > 0`, gets that turn's speaker and
`overlap = false` — the duration floor and the positive threshold are the
amendments forced by `c4_contained_counterexample`; (d) a segment overlapping
no turn at all gets `speaker = UNKNOWN`.  The last conjunct ties the rows of
`merge_asr_diarization` to `mergeRow` over the turns sorted by start. -/
theorem c4_diarization_rules :
    (∀ (idx : ℕ) (seg : AsrJson) (diarS : List DiarTurn) (cfgD : DiarizationConfig),
      (scanTurns seg.start seg.end_ diarS (0, "UNKNOWN", 0)).1 /
          max (1/1000) (seg.end_ - seg.start) < 1/10 →
      (mergeRow idx seg diarS cfgD).speakerCluster = "UNKNOWN") ∧
    (∀ (idx : ℕ) (seg : AsrJson) (diarS : List DiarTurn) (cfgD : DiarizationConfig),
      cfgD.overlapThreshold ≤ (scanTurns seg.start seg.end_ diarS (0, "UNKNOWN", 0)).2.2 /
          max (1/1000) (seg.end_ - seg.start) →
      (mergeRow idx seg diarS cfgD).overlap = true ∧
      (mergeRow idx seg diarS cfgD).speakerCluster = "UNKNOWN") ∧
    (∀ (idx : ℕ) (seg : AsrJson) (cfgD : DiarizationConfig) (T : DiarTurn)
        (l1 l2 : List DiarTurn),
      1/10000 ≤ seg.end_ - seg.start →
      T.start ≤ seg.start → seg.end_ ≤ T.end_ → T.overlap.getD false = false →
      0 < cfgD.overlapThreshold →
      (∀ U ∈ l1 ++ l2, overlapQ seg.start seg.end_ U.start U.end_ = 0) →
      List.Pairwise (fun u v => u.start ≤ v.start) (l1 ++ T :: l2) →
      (mergeRow idx seg (l1 ++ T :: l2) cfgD).speakerCluster =
          T.speaker.getD "UNKNOWN" ∧
      (mergeRow idx seg (l1 ++ T :: l2) cfgD).overlap = false) ∧
    (∀ (idx : ℕ) (seg : AsrJson) (diarS : List DiarTurn) (cfgD : DiarizationConfig),
      (∀ U ∈ diarS, overlapQ seg.start seg.end_ U.start U.end_ = 0) →
      (mergeRow idx seg diarS cfgD).speakerCluster = "UNKNOWN") ∧
    (∀ (asr : List AsrJson) (diar : List DiarTurn) (cfgD : DiarizationConfig) (k : ℕ),
      (mergeAsrDiarization asr diar cfgD)[k]? =
        (asr[k]?).map (fun g => mergeRow k g (sortByKey DiarTurn.start diar) cfgD)) := by
  refine ⟨?_, ?_, ?_, ?_, ?_⟩
  · intro idx seg diarS cfgD h
    simp only [mergeRow]
    rw [if_pos h]
    by_cases h2 : cfgD.overlapThreshold ≤
        (scanTurns seg.start seg.end_ diarS (0, "UNKNOWN", 0)).2.2 /
          max (1/1000) (seg.end_ - seg.start)
    · rw [if_pos h2]
    · rw [if_neg h2]
  · intro idx seg diarS cfgD h
    constructor
    · simp only [mergeRow]
      exact decide_eq_true h
    · simp only [mergeRow]
      rw [if_pos h]
  · intro idx seg cfgD T l1 l2 hdur hTs hTe hfl hth hzero hsorted
    have hlt : seg.start < seg.end_ := by linarith
    have hl1 : ∀ U ∈ l1, overlapQ seg.start seg.end_ U.start U.end_ = 0 ∧
        U.start ≤ seg.start := by
      intro U hU
      refine ⟨hzero U (List.mem_append_left _ hU), ?_⟩
      have hrel := (List.pairwise_append.1 hsorted).2.2 U hU T (List.mem_cons_self _ _)
      exact le_trans hrel hTs
    have hl2 : ∀ U ∈ l2, overlapQ seg.start seg.end_ U.start U.end_ = 0 :=
      fun U hU => hzero U (List.mem_append_right _ hU)
    have hscan := scanTurns_single seg.start seg.end_ hlt T hTs hTe l1 l2 hl1 hl2
    rw [hfl] at hscan
    simp only [Bool.false_eq_true, if_false] at hscan
    have hod0 : (scanTurns seg.start seg.end_ (l1 ++ T :: l2) (0, "UNKNOWN", 0)).2.2 /
        max (1/1000) (seg.end_ - seg.start) = 0 := by
      rw [hscan]
      simp
    have hnoth : ¬ cfgD.overlapThreshold ≤
        (scanTurns seg.start seg.end_ (l1 ++ T :: l2) (0, "UNKNOWN", 0)).2.2 /
          max (1/1000) (seg.end_ - seg.start) := by
      rw [hod0]
      exact not_le.2 hth
    constructor
    · simp only [mergeRow]
      rw [if_neg hnoth, if_neg (by rw [hscan]; exact ratio_ge seg.start seg.end_ hdur)]
      rw [hscan]
    · simp only [mergeRow]
      exact decide_eq_false hnoth
  · intro idx seg diarS cfgD h
    have hscan := scanTurns_zero seg.start seg.end_ diarS (0, "UNKNOWN", 0) h
    simp only [mergeRow]
    have hlt : (scanTurns seg.start seg.end_ diarS (0, "UNKNOWN", 0)).1 /
        max (1/1000) (seg.end_ - seg.start) < 1/10 := by
      rw [hscan]
      norm_num
    rw [if_pos hlt]
    by_cases h2 : cfgD.overlapThreshold ≤
        (scanTurns seg.start seg.end_ diarS (0, "UNKNOWN", 0)).2.2 /
          max (1/1000) (seg.end_ - seg.start)
    · rw [if_pos h2]
    · rw [if_neg h2]
  · intro asr diar cfgD k
    rw [mergeAsrDiarization, mergeGo_getElem?]
    cases asr[k]? with
    | none => rfl
    | some g => simp

/-- Counterexample to C4 as stated: the segment `[0, 0.00005]` is fully
contained in the single non-overlapping turn `[0, 10]` of `SPEAKER_00`
(threshold `0.25`), yet its speaker is `UNKNOWN`, because
`best_overlap / max(0.001, duration) = 0.00005 / 0.001 = 0.05 < 0.1`. -/
theorem c4_contained_counterexample :
    (mergeAsrDiarization [⟨0, 1/20000, some ['a'], some (9/10)⟩]
        [⟨0, 10, some "SPEAKER_00", some false⟩] ⟨1/4⟩).map
      MergeRow.speakerCluster = ["UNKNOWN"] := by
  with_unfolding_all decide

/-- Witness for C4 (amended), at the spec's own concrete scenario: the
segment `[0, 2]` inside the non-overlapping turn `[0, 2]` of `SPEAKER_00`
with threshold `0.25` gets that speaker and `overlap = false`. -/
theorem c4_diarization_rules_witness :
    (mergeRow 0 ⟨0, 2, some ['H'], some (9/10)⟩
        ([] ++ ⟨0, 2, some "SPEAKER_00", some false⟩ :: []) ⟨1/4⟩).speakerCluster =
      "SPEAKER_00" ∧
    (mergeRow 0 ⟨0, 2, some ['H'], some (9/10)⟩
        ([] ++ ⟨0, 2, some "SPEAKER_00", some false⟩ :: []) ⟨1/4⟩).overlap = false := by
  have h := c4_diarization_rules.2.2.1 0 ⟨0, 2, some ['H'], some (9/10)⟩ ⟨1/4⟩
    ⟨0, 2, some "SPEAKER_00", some false⟩ [] []
    (by norm_num) (by norm_num) (by norm_num) (by decide) (by norm_num)
    (by simp) (by simp)
  exact h

/-! ## Claim C2 -/

theorem foldl_append_flatten {β γ : Type} (f : β → List γ) :
    ∀ (l : List β) (init : List γ),
      l.foldl (fun acc s => acc ++ f s) init = init ++ (l.map f).flatten := by
  intro l
  induction l with
  | nil => intro init; simp
  | cons x xs ih =>
    intro init
    simp only [List.foldl_cons, List.map_cons, List.flatten_cons, ih,
      List.append_assoc]

theorem splitSegments_eq (segs : List Span) (cfg : AudioConfig) :
    splitSegments segs cfg =
      (segs.map (fun s => splitSegmentBySentence s cfg)).flatten := by
  rw [splitSegments, foldl_append_flatten]
  simp

theorem sumLens_cons (s : List Char) (rest : List (List Char)) :
    sumLens (s :: rest) = s.length + sumLens rest := by
  simp [sumLens]

/-- Every piece built by the timing-allocation loop satisfies
`start ≤ end` provided the remaining character budget fits into `e`. -/
theorem buildPieces_le (conf dur : ℚ) (total : ℕ) (e : ℚ) (hd : 0 ≤ dur)
    (ht : (0 : ℚ) < (total : ℚ)) :
    ∀ (refined : List (List Char)) (cur : ℚ),
      cur + dur * (sumLens refined : ℚ) / (total : ℚ) ≤ e →
      ∀ p ∈ buildPieces conf dur total e refined cur, p.start ≤ p.end_ := by
  intro refined
  induction refined with
  | nil => intro cur h p hp; simp [buildPieces] at hp
  | cons s rest ih =>
    intro cur h p hp
    cases rest with
    | nil =>
      simp only [buildPieces, List.mem_singleton] at hp
      subst hp
      have hnn : 0 ≤ dur * (sumLens [s] : ℚ) / (total : ℚ) := by positivity
      show cur ≤ e
      linarith
    | cons s2 rest2 =>
      simp only [buildPieces] at hp
      rcases List.mem_cons.1 hp with rfl | hp
      · show cur ≤ cur + dur * (s.length : ℚ) / (total : ℚ)
        have hnn : 0 ≤ dur * (s.length : ℚ) / (total : ℚ) := by positivity
        linarith
      · refine ih (cur + dur * (s.length : ℚ) / (total : ℚ)) ?_ p hp
        have hsum : (sumLens (s :: s2 :: rest2) : ℚ) =
            (s.length : ℚ) + (sumLens (s2 :: rest2) : ℚ) := by
          rw [sumLens_cons]
          push_cast
          ring
        rw [hsum] at h
        have hsplit : dur * ((s.length : ℚ) + (sumLens (s2 :: rest2) : ℚ)) / (total : ℚ) =
            dur * (s.length : ℚ) / (total : ℚ) +
              dur * (sumLens (s2 :: rest2) : ℚ) / (total : ℚ) := by
          ring
        linarith [hsplit ▸ h]

theorem buildPieces_start_le (conf : ℚ) (s0 e0 : ℚ) (h : s0 + 1/1000 ≤ e0)
    (R : List (List Char)) :
    ∀ p ∈ buildPieces conf (max (1/1000) (e0 - s0)) (max 1 (sumLens R)) e0 R s0,
      p.start ≤ p.end_ := by
  have hdur : max (1/1000 : ℚ) (e0 - s0) = e0 - s0 := max_eq_right (by linarith)
  have htpos : (0 : ℚ) < ((max 1 (sumLens R) : ℕ) : ℚ) := by
    have : (1 : ℕ) ≤ max 1 (sumLens R) := le_max_left _ _
    exact_mod_cast Nat.lt_of_lt_of_le Nat.zero_lt_one this
  refine buildPieces_le conf _ _ e0 (le_trans (by norm_num) (le_max_left _ _))
    htpos R s0 ?_
  rw [hdur]
  have hq1 : (sumLens R : ℚ) / ((max 1 (sumLens R) : ℕ) : ℚ) ≤ 1 := by
    rw [div_le_one htpos]
    exact_mod_cast le_max_right 1 (sumLens R)
  have hq0 : 0 ≤ (sumLens R : ℚ) / ((max 1 (sumLens R) : ℕ) : ℚ) := by positivity
  have hd0 : (0 : ℚ) ≤ e0 - s0 := by linarith
  have hmul : (e0 - s0) * ((sumLens R : ℚ) / ((max 1 (sumLens R) : ℕ) : ℚ)) ≤ e0 - s0 := by
    nlinarith
  calc s0 + (e0 - s0) * (sumLens R : ℚ) / ((max 1 (sumLens R) : ℕ) : ℚ)
      = s0 + (e0 - s0) * ((sumLens R : ℚ) / ((max 1 (sumLens R) : ℕ) : ℚ)) := by ring
    _ ≤ s0 + (e0 - s0) := by linarith
    _ = e0 := by ring

theorem splitSegmentBySentence_bounds (seg : Span) (cfg : AudioConfig)
    (h : seg.start + 1/1000 ≤ seg.end_) :
    ∀ p ∈ splitSegmentBySentence seg cfg, p.start ≤ p.end_ := by
  intro p hp
  simp only [splitSegmentBySentence] at hp
  by_cases ht : strip seg.text = []
  · rw [if_pos ht] at hp
    simp at hp
  · rw [if_neg ht] at hp
    exact buildPieces_start_le seg.confidence seg.start seg.end_ h _ p hp

/-- C2 (amended): for every input segment whose duration is at least the
`0.001` s floor of the split pass, every emitted segment satisfies
`end ≥ start`.  The duration-floor hypothesis, and the removal of the
`duration ≤ max_segment_sec` conjunct, are the amendments forced by
`c2_split_counterexample`: a zero-duration segment yields a piece with
`end < start`, and an interior comma-split piece can exceed
`max_segment_sec` because the source does not re-check comma chunks. -/
theorem c2_split_bounds (segs : List Span) (cfg : AudioConfig)
    (h : ∀ s ∈ segs, s.start + 1/1000 ≤ s.end_) :
    ∀ p ∈ splitSegments segs cfg, p.start ≤ p.end_ := by
  intro p hp
  rw [splitSegments_eq] at hp
  rcases List.mem_flatten.1 hp with ⟨l, hl, hpl⟩
  rcases List.mem_map.1 hl with ⟨s, hs, rfl⟩
  exact splitSegmentBySentence_bounds s cfg (h s hs) p hpl

/-- Counterexample to C2 as stated, with `max_segment_sec = 3`: both input
segments satisfy `end ≥ start`, yet the split pass emits five pieces of which
piece 1 (`"world"`, from the zero-duration segment) has `end = 0 < start =
1/2000`, and piece 3 (`"bbbbbbbbb,"`, an interior piece of the output
stream) has duration `100/21 > 3 = max_segment_sec`. -/
theorem c2_split_counterexample :
    (∀ s ∈ [(⟨0, 0, ['h', 'e', 'l', 'l', 'o', ' ', 'w', 'o', 'r', 'l', 'd'], 1⟩ : Span),
        ⟨0, 10, ['a', 'a', 'a', 'a', 'a', 'a', 'a', 'a', 'a', ',',
          'b', 'b', 'b', 'b', 'b', 'b', 'b', 'b', 'b', ',', 'c'], 1⟩],
      s.start ≤ s.end_) ∧
    (splitSegments [⟨0, 0, ['h', 'e', 'l', 'l', 'o', ' ', 'w', 'o', 'r', 'l', 'd'], 1⟩,
        ⟨0, 10, ['a', 'a', 'a', 'a', 'a', 'a', 'a', 'a', 'a', ',',
          'b', 'b', 'b', 'b', 'b', 'b', 'b', 'b', 'b', ',', 'c'], 1⟩]
        ⟨1, 3, 6/10⟩).map (fun p => (p.start, p.end_)) =
      [(0, 1/2000), (1/2000, 0), (0, 100/21), (100/21, 200/21), (200/21, 10)] ∧
    ¬ ((1/2000 : ℚ) ≤ 0) ∧ ((3 : ℚ) < 200/21 - 100/21) := by
  refine ⟨by with_unfolding_all decide, by with_unfolding_all decide,
    by norm_num, by norm_num⟩

/-- Witness for C2 (amended) on the comma-split segment: the input satisfies
the duration floor and every emitted piece satisfies `end ≥ start`. -/
theorem c2_split_bounds_witness :
    (∀ s ∈ [(⟨0, 10, ['a', 'a', 'a', 'a', 'a', 'a', 'a', 'a', 'a', ',',
        'b', 'b', 'b', 'b', 'b', 'b', 'b', 'b', 'b', ',', 'c'], 1⟩ : Span)],
      s.start + 1/1000 ≤ s.end_) ∧
    (∀ p ∈ splitSegments [⟨0, 10, ['a', 'a', 'a', 'a', 'a', 'a', 'a', 'a', 'a', ',',
        'b', 'b', 'b', 'b', 'b', 'b', 'b', 'b', 'b', ',', 'c'], 1⟩] ⟨1, 3, 6/10⟩,
      p.start ≤ p.end_) :=
  ⟨by with_unfolding_all decide,
    c2_split_bounds _ _ (by with_unfolding_all decide)⟩

/-! ## Claim C8 -/

theorem isSpaceRe_not_keep {c : Char} (h : isSpaceRe c = true) :
    isKeep c.toLower = false := by
  simp only [isSpaceRe, Bool.or_eq_true, decide_eq_true_eq] at h
  rcases h with h | h
  · subst h; decide
  · have hcond : ¬ (c.toNat ≥ 65 ∧ c.toNat ≤ 90) := by omega
    have hlow : c.toLower = c := by
      unfold Char.toLower
      simp [hcond]
    rw [hlow]
    simp only [isKeep, decide_eq_false_iff_not]
    omega

theorem nlen_nil : nlen [] = 0 := rfl

theorem nlen_of_strip_nil {t : List Char} (h : strip t = []) : nlen t = 0 := by
  rw [← nlen_strip t, h, nlen_nil]

theorem sum_map_flatten {γ : Type} (f : γ → ℕ) :
    ∀ L : List (List γ),
      ((L.flatten).map f).sum = (L.map (fun x => (x.map f).sum)).sum := by
  intro L
  induction L with
  | nil => simp
  | cons x rest ih => simp [ih, Function.comp_def]

theorem splitSentencesGo_nil_nlen (buf : List Char) :
    ((splitSentencesGo [] buf).map nlen).sum = nlen buf := by
  simp only [splitSentencesGo]
  by_cases hr : strip buf = []
  · rw [if_pos hr]
    simp [nlen_of_strip_nil hr]
  · rw [if_neg hr]
    simp [nlen_strip]

theorem splitSentencesGo_nlen :
    ∀ (n : ℕ) (t buf : List Char), t.length ≤ n →
      ((splitSentencesGo t buf).map nlen).sum = nlen buf + nlen t := by
  intro n
  induction n with
  | zero =>
    intro t buf hlen
    have ht : t = [] := List.length_eq_zero.1 (Nat.le_zero.1 hlen)
    subst ht
    rw [splitSentencesGo_nil_nlen, nlen_nil]
    omega
  | succ n ih =>
    intro t buf hlen
    cases t with
    | nil =>
      rw [splitSentencesGo_nil_nlen, nlen_nil]
      omega
    | cons c rest =>
      simp only [splitSentencesGo]
      by_cases hc : c ∈ ENDPUNCT
      · rw [if_pos hc]
        have hsplit : rest.takeWhile (fun d => decide (d ∈ ENDQUOTES)) ++
            rest.dropWhile (fun d => decide (d ∈ ENDQUOTES)) = rest :=
          List.takeWhile_append_dropWhile _ _
        have hr : nlen rest =
            nlen (rest.takeWhile (fun d => decide (d ∈ ENDQUOTES))) +
            nlen (rest.dropWhile (fun d => decide (d ∈ ENDQUOTES))) := by
          rw [← nlen_append, hsplit]
        have hlen2 : (rest.dropWhile (fun d => decide (d ∈ ENDQUOTES))).length ≤ n := by
          have := List.Sublist.length_le (List.dropWhile_sublist
            (l := rest) (fun d => decide (d ∈ ENDQUOTES)))
          simp only [List.length_cons] at hlen
          omega
        have hrec := ih (rest.dropWhile (fun d => decide (d ∈ ENDQUOTES))) [] hlen2
        rw [nlen_nil] at hrec
        have hbq : nlen (buf ++ c :: rest.takeWhile (fun d => decide (d ∈ ENDQUOTES))) =
            nlen buf + nlen (c :: rest.takeWhile (fun d => decide (d ∈ ENDQUOTES))) :=
          nlen_append _ _
        have hk1 := nlen_cons c (rest.takeWhile (fun d => decide (d ∈ ENDQUOTES)))
        have hk2 := nlen_cons c rest
        by_cases hs : strip (buf ++ c :: rest.takeWhile (fun d => decide (d ∈ ENDQUOTES))) = []
        · rw [if_pos hs]
          have h0 : nlen (buf ++ c :: rest.takeWhile (fun d => decide (d ∈ ENDQUOTES))) = 0 :=
            nlen_of_strip_nil hs
          rw [hrec]
          omega
        · rw [if_neg hs]
          simp only [List.map_cons, List.sum_cons]
          rw [hrec, nlen_strip]
          omega
      · rw [if_neg hc]
        have hlen2 : rest.length ≤ n := by
          simp only [List.length_cons] at hlen
          omega
        have hrec := ih rest (buf ++ [c]) hlen2
        rw [hrec, nlen_append]
        have hk1 := nlen_cons c ([] : List Char)
        have hk2 := nlen_cons c rest
        rw [nlen_nil] at hk1
        omega

theorem splitSentences_nlen (t : List Char) :
    ((splitSentences t).map nlen).sum = nlen t := by
  rw [splitSentences, splitSentencesGo_nlen t.length t [] (le_refl _), nlen_nil]
  omega

theorem splitByCommasGo_nlen :
    ∀ (t buf : List Char),
      ((splitByCommasGo t buf).map nlen).sum = nlen buf + nlen t := by
  intro t
  induction t with
  | nil =>
    intro buf
    simp only [splitByCommasGo]
    by_cases hr : strip buf = []
    · rw [if_pos hr]
      simp [nlen_of_strip_nil hr, nlen_nil]
    · rw [if_neg hr]
      simp [nlen_strip, nlen_nil]
  | cons c rest ih =>
    intro buf
    simp only [splitByCommasGo]
    have hk2 := nlen_cons c rest
    by_cases hc : c ∈ COMMAPUNCT
    · rw [if_pos hc]
      have hbc : nlen (buf ++ [c]) = nlen buf + nlen [c] := nlen_append _ _
      have hk1 := nlen_cons c ([] : List Char)
      rw [nlen_nil] at hk1
      by_cases hs : strip (buf ++ [c]) = []
      · rw [if_pos hs]
        have h0 : nlen (buf ++ [c]) = 0 := nlen_of_strip_nil hs
        rw [ih []]
        rw [nlen_nil]
        omega
      · rw [if_neg hs]
        simp only [List.map_cons, List.sum_cons]
        rw [ih [], nlen_strip, nlen_nil]
        omega
    · rw [if_neg hc]
      rw [ih (buf ++ [c]), nlen_append]
      have hk1 := nlen_cons c ([] : List Char)
      rw [nlen_nil] at hk1
      omega

theorem splitByCommas_nlen (t : List Char) :
    ((splitByCommas t).map nlen).sum = nlen t := by
  rw [splitByCommas]
  by_cases hp : splitByCommasGo t [] = []
  · rw [if_pos hp]
    simp
  · rw [if_neg hp]
    rw [splitByCommasGo_nlen t [], nlen_nil]
    omega

theorem spaceChunksGo_nlen :
    ∀ (t buf : List Char),
      ((spaceChunksGo t buf).map nlen).sum = nlen buf + nlen t := by
  intro t
  induction t with
  | nil =>
    intro buf
    simp only [spaceChunksGo]
    by_cases hb : buf = []
    · rw [if_pos hb, hb]
      simp [nlen_nil]
    · rw [if_neg hb]
      simp [nlen_nil]
  | cons c rest ih =>
    intro buf
    simp only [spaceChunksGo]
    have hk2 := nlen_cons c rest
    by_cases hc : isSpaceRe c = true
    · rw [if_pos hc]
      have hk0 : nlen (c :: rest) = nlen rest := by
        rw [hk2, isSpaceRe_not_keep hc]
        simp
      by_cases hb : buf = []
      · rw [if_pos hb, hb]
        rw [ih [], nlen_nil, hk0]
      · rw [if_neg hb]
        simp only [List.map_cons, List.sum_cons]
        rw [ih [], nlen_nil, hk0]
        omega
    · rw [if_neg hc]
      rw [ih (buf ++ [c]), nlen_append]
      have hk1 := nlen_cons c ([] : List Char)
      rw [nlen_nil] at hk1
      omega

theorem mergeShortGo_nlen (mc : ℕ) :
    ∀ (qs : List (List Char)) (cur : List Char),
      ((mergeShortGo mc cur qs).map nlen).sum = nlen cur + (qs.map nlen).sum := by
  intro qs
  induction qs with
  | nil => intro cur; simp [mergeShortGo]
  | cons q rest ih =>
    intro cur
    simp only [mergeShortGo]
    by_cases hq : q.length < mc
    · rw [if_pos hq, ih (cur ++ q), nlen_append]
      simp only [List.map_cons, List.sum_cons]
      try omega
    · rw [if_neg hq]
      simp only [List.map_cons, List.sum_cons]
      rw [ih q]

theorem filter_ne_nil_nlen :
    ∀ l : List (List Char),
      ((l.filter (fun p => decide (p ≠ []))).map nlen).sum = (l.map nlen).sum := by
  intro l
  induction l with
  | nil => simp
  | cons x rest ih =>
    by_cases hx : x = []
    · subst hx
      rw [List.filter_cons_of_neg (by simp)]
      simp only [List.map_cons, List.sum_cons, nlen_nil]
      omega
    · rw [List.filter_cons_of_pos (by simp [hx])]
      simp only [List.map_cons, List.sum_cons]
      omega

theorem map_strip_nlen :
    ∀ l : List (List Char), ((l.map strip).map nlen).sum = (l.map nlen).sum := by
  intro l
  induction l with
  | nil => simp
  | cons x rest ih =>
    simp only [List.map_cons, List.sum_cons, nlen_strip]
    omega

theorem splitBySpaces_nlen (t : List Char) (mc : ℕ) :
    ((splitBySpaces t mc).map nlen).sum = nlen t := by
  rw [splitBySpaces]
  have hraw : ((((spaceChunksGo t []).map strip).filter
      (fun p => decide (p ≠ []))).map nlen).sum = nlen t := by
    rw [filter_ne_nil_nlen, map_strip_nlen, spaceChunksGo_nlen t [], nlen_nil]
    omega
  by_cases hlen : (((spaceChunksGo t []).map strip).filter
      (fun p => decide (p ≠ []))).length ≤ 1
  · rw [if_pos hlen]
    simp [nlen_nil]
  · rw [if_neg hlen]
    cases hcase : ((spaceChunksGo t []).map strip).filter (fun p => decide (p ≠ [])) with
    | nil => simp
    | cons p rest =>
      rw [mergeShortGo_nlen]
      rw [hcase] at hraw
      simp only [List.map_cons, List.sum_cons] at hraw
      omega

theorem chunksOf_nlen (size : ℕ) (hsz : size ≠ 0) :
    ∀ (n : ℕ) (t : List Char), t.length ≤ n →
      ((chunksOf size t).map nlen).sum = nlen t := by
  intro n
  induction n with
  | zero =>
    intro t hlen
    have ht : t = [] := List.length_eq_zero.1 (Nat.le_zero.1 hlen)
    subst ht
    rw [chunksOf]
    simp [nlen_nil]
  | succ n ih =>
    intro t hlen
    by_cases ht : t = []
    · subst ht
      rw [chunksOf]
      simp [nlen_nil]
    · rw [chunksOf, dif_neg (by simp [ht, hsz])]
      have hdrop : (t.drop size).length ≤ n := by
        rw [List.length_drop]
        have : 1 ≤ t.length := by
          cases t with
          | nil => exact absurd rfl ht
          | cons a b => simp
        omega
      have hrec := ih (t.drop size) hdrop
      have htd : nlen t = nlen (t.take size) + nlen (t.drop size) := by
        rw [← nlen_append, List.take_append_drop]
      by_cases hc : strip (t.take size) = []
      · rw [if_pos hc, hrec]
        have h0 : nlen (t.take size) = 0 := nlen_of_strip_nil hc
        omega
      · rw [if_neg hc]
        simp only [List.map_cons, List.sum_cons]
        rw [hrec, nlen_strip]
        omega

theorem splitByLength_nlen (t : List Char) (parts : ℤ) :
    ((splitByLength t parts).map nlen).sum = nlen t := by
  rw [splitByLength]
  by_cases hp : parts ≤ 1
  · rw [if_pos hp]
    simp
  · rw [if_neg hp]
    by_cases ht : strip t = []
    · rw [if_pos ht]
      simp [nlen_of_strip_nil ht]
    · rw [if_neg ht]
      rw [chunksOf_nlen _ (by positivity) (strip t).length _ (le_refl _), nlen_strip]

theorem refineSentence_nlen (cfg : AudioConfig) (dur : ℚ) (total : ℕ)
    (sent : List Char) :
    ((refineSentence cfg dur total sent).map nlen).sum = nlen sent := by
  rw [refineSentence]
  by_cases hp : cfg.maxSegmentSec < dur * (sent.length : ℚ) / (total : ℚ)
  · rw [if_pos hp]
    by_cases hc : (splitByCommas sent).length = 1 ∧
        cfg.maxSegmentSec < dur * (sent.length : ℚ) / (total : ℚ)
    · rw [if_pos hc]
      exact splitByLength_nlen _ _
    · rw [if_neg hc]
      exact splitByCommas_nlen _
  · rw [if_neg hp]
    simp

theorem refined_nlen (cfg : AudioConfig) (dur : ℚ) (total : ℕ)
    (sentences : List (List Char)) :
    (((sentences.foldl (fun acc sent => acc ++ refineSentence cfg dur total sent)
        []).map nlen).sum) = (sentences.map nlen).sum := by
  rw [foldl_append_flatten, List.nil_append, sum_map_flatten, List.map_map]
  rw [List.map_congr_left
    (fun sent _ => by
      show ((refineSentence cfg dur total sent).map nlen).sum = nlen sent
      exact refineSentence_nlen cfg dur total sent)]

theorem sentencesStage_nlen (text : List Char) :
    (((if (if splitSentences text = [] then [text] else splitSentences text).length = 1 ∧
          text.any isSpaceRe = true then splitBySpaces text 3
        else if splitSentences text = [] then [text]
        else splitSentences text) : List (List Char)).map nlen).sum = nlen text := by
  by_cases hcond : (if splitSentences text = [] then [text]
      else splitSentences text).length = 1 ∧ text.any isSpaceRe = true
  · rw [if_pos hcond]
    exact splitBySpaces_nlen text 3
  · rw [if_neg hcond]
    by_cases h1 : splitSentences text = []
    · rw [if_pos h1]
      simp [nlen_nil]
    · rw [if_neg h1]
      exact splitSentences_nlen text

theorem refinedStage_nlen (cfg : AudioConfig) (dur : ℚ) (text : List Char)
    (sentences : List (List Char)) (hs : (sentences.map nlen).sum = nlen text) :
    (((if sentences.foldl (fun acc sent => acc ++
          refineSentence cfg dur (max 1 (sumLens sentences)) sent) [] = []
        then [text]
        else sentences.foldl (fun acc sent => acc ++
          refineSentence cfg dur (max 1 (sumLens sentences)) sent) []) :
      List (List Char)).map nlen).sum = nlen text := by
  by_cases hre : sentences.foldl (fun acc sent => acc ++
      refineSentence cfg dur (max 1 (sumLens sentences)) sent) [] = []
  · rw [if_pos hre]
    simp [nlen_nil]
  · rw [if_neg hre]
    rw [refined_nlen]
    exact hs

theorem buildPieces_texts (conf dur : ℚ) (total : ℕ) (e : ℚ) :
    ∀ (R : List (List Char)) (cur : ℚ),
      (buildPieces conf dur total e R cur).map Span.text = R := by
  intro R
  induction R with
  | nil => intro cur; rfl
  | cons s rest ih =>
    intro cur
    cases rest with
    | nil => rfl
    | cons s2 rest2 =>
      simp only [buildPieces, List.map_cons]
      rw [ih]

theorem splitSegmentBySentence_nlen (seg : Span) (cfg : AudioConfig) :
    ((splitSegmentBySentence seg cfg).map (fun p => nlen p.text)).sum =
      nlen seg.text := by
  simp only [splitSegmentBySentence]
  by_cases ht : strip seg.text = []
  · rw [if_pos ht]
    simp [nlen_of_strip_nil ht]
  · rw [if_neg ht]
    have hmap : ∀ l : List Span,
        l.map (fun p => nlen p.text) = (l.map Span.text).map nlen := by
      intro l
      rw [List.map_map]
      rfl
    rw [hmap, buildPieces_texts, ← nlen_strip seg.text]
    generalize strip seg.text = text
    exact refinedStage_nlen cfg _ text _ (sentencesStage_nlen text)

theorem mergeStep_nlen (cfg : AudioConfig) (st : MState) (seg : Span) :
    (((mergeStep cfg st seg).merged.map (fun p => nlen p.text)).sum +
      (mergeStep cfg st seg).cur.elim 0 (fun c => nlen c.text)) =
    ((st.merged.map (fun p => nlen p.text)).sum +
      st.cur.elim 0 (fun c => nlen c.text)) + nlen seg.text := by
  obtain ⟨cur0, cs0, ds0, mg0⟩ := st
  by_cases htext : strip seg.text = []
  · simp only [mergeStep]
    rw [if_pos htext, nlen_of_strip_nil htext]
    dsimp only
    omega
  · have hst := nlen_strip seg.text
    cases cur0 with
    | none =>
      simp only [mergeStep]
      rw [if_neg htext]
      simp only [Option.elim]
      omega
    | some c =>
      simp only [mergeStep]
      rw [if_neg htext]
      by_cases hbr : cfg.mergePauseSec < seg.start - c.end_ ∨
          (cfg.minSegmentSec ≤ c.end_ - c.start ∧
            cfg.maxSegmentSec < c.end_ - c.start + max 0 (seg.end_ - seg.start))
      · rw [if_pos hbr]
        simp only [Option.elim, List.map_append, List.sum_append, flushAcc,
          List.map_cons, List.map_nil, List.sum_cons, List.sum_nil]
        omega
      · rw [if_neg hbr]
        by_cases he : isSentenceEnd (strip seg.text) = true ∧
            cfg.minSegmentSec ≤ seg.end_ - c.start
        · rw [if_pos he]
          simp only [Option.elim, List.map_append, List.sum_append, flushAcc,
            List.map_cons, List.map_nil, List.sum_cons, List.sum_nil]
          rw [joinText_nlen]
          omega
        · rw [if_neg he]
          simp only [Option.elim]
          rw [joinText_nlen]
          omega

theorem mergeFold_nlen (cfg : AudioConfig) :
    ∀ (l : List Span) (st : MState),
      (((l.foldl (mergeStep cfg) st).merged.map (fun p => nlen p.text)).sum +
        (l.foldl (mergeStep cfg) st).cur.elim 0 (fun c => nlen c.text)) =
      ((st.merged.map (fun p => nlen p.text)).sum +
        st.cur.elim 0 (fun c => nlen c.text)) + (l.map (fun s => nlen s.text)).sum := by
  intro l
  induction l with
  | nil => intro st; simp
  | cons x xs ih =>
    intro st
    simp only [List.foldl_cons, List.map_cons, List.sum_cons]
    rw [ih (mergeStep cfg st x), mergeStep_nlen]
    omega

theorem mergeAsrSegments_nlen (segs : List Span) (cfg : AudioConfig) :
    ((mergeAsrSegments segs cfg).map (fun p => nlen p.text)).sum =
      (segs.map (fun s => nlen s.text)).sum := by
  have h := mergeFold_nlen cfg segs ⟨none, 0, 0, []⟩
  simp only [List.map_nil, List.sum_nil, Option.elim] at h
  rw [mergeAsrSegments]
  cases hcur : (segs.foldl (mergeStep cfg) ⟨none, 0, 0, []⟩).cur with
  | none =>
    rw [hcur] at h
    simp only [Option.elim] at h
    dsimp only
    omega
  | some c =>
    rw [hcur] at h
    simp only [Option.elim] at h
    dsimp only
    simp only [List.map_append, List.sum_append, flushAcc, List.map_cons,
      List.map_nil, List.sum_cons, List.sum_nil]
    omega

/-- C8: consolidation preserves all non-empty text: the total normalized
length (§4.1 normalization without the optional phonetic fold) of the output
of the merge pass followed by the split pass equals the total normalized
length of the input spans — joining, stripping and splitting move only
whitespace and re-partition characters. -/
theorem c8_consolidation_preserves_text (spans : List Span) (cfg : AudioConfig) :
    ((splitSegments (mergeAsrSegments spans cfg) cfg).map
        (fun p => nlen p.text)).sum =
      (spans.map (fun s => nlen s.text)).sum := by
  rw [splitSegments_eq, sum_map_flatten, List.map_map]
  rw [List.map_congr_left (fun s _ => by
    show ((splitSegmentBySentence s cfg).map (fun p => nlen p.text)).sum = nlen s.text
    exact splitSegmentBySentence_nlen s cfg)]
  exact mergeAsrSegments_nlen spans cfg

/-! ## Adequacy of the fuel of the matching-block recursion -/

/-- Invariant propagation through the inner loop of `find_longest_match`. -/
theorem flmInner_inv (jl : ℕ → ℕ) (i alo blo bhi ahi : ℕ) (hai : alo ≤ i)
    (hia : i < ahi) (hjl : FlmRowInv alo blo bhi i jl) :
    ∀ (js : List ℕ) (best : ℕ × ℕ × ℕ) (newjl : ℕ → ℕ),
      FlmBestInv alo ahi blo bhi best → FlmRowInv alo blo bhi (i + 1) newjl →
      FlmBestInv alo ahi blo bhi (flmInner jl i blo bhi js best newjl).1 ∧
        FlmRowInv alo blo bhi (i + 1) (flmInner jl i blo bhi js best newjl).2 := by
  intro js
  induction js with
  | nil => intro best newjl hb hn; exact ⟨hb, hn⟩
  | cons j rest ih =>
    intro best newjl hb hn
    simp only [flmInner]
    by_cases hlo : j < blo
    · rw [if_pos hlo]
      exact ih best newjl hb hn
    · rw [if_neg hlo]
      by_cases hhi : bhi ≤ j
      · rw [if_pos hhi]
        exact ⟨hb, hn⟩
      · rw [if_neg hhi]
        have hjlo : blo ≤ j := not_lt.1 hlo
        have hjhi : j < bhi := not_le.1 hhi
        have hk1 : alo + ((if j = 0 then 0 else jl (j - 1)) + 1) ≤ i + 1 := by
          by_cases hj0 : j = 0
          · rw [if_pos hj0]
            omega
          · rw [if_neg hj0]
            by_cases hv : jl (j - 1) = 0
            · rw [hv]
              omega
            · have := (hjl (j - 1) hv).2.2.1
              omega
        have hk2 : blo + ((if j = 0 then 0 else jl (j - 1)) + 1) ≤ j + 1 := by
          by_cases hj0 : j = 0
          · rw [if_pos hj0]
            omega
          · rw [if_neg hj0]
            by_cases hv : jl (j - 1) = 0
            · rw [hv]
              omega
            · have h2 := (hjl (j - 1) hv).2.2.2
              have h3 : 1 ≤ j := Nat.pos_of_ne_zero hj0
              omega
        refine ih _ _ ?_ ?_
        · by_cases hlt : best.2.2 < (if j = 0 then 0 else jl (j - 1)) + 1
          · rw [if_pos hlt]
            constructor
            · intro h0
              dsimp only at h0
              omega
            · intro _
              dsimp only
              refine ⟨by omega, by omega, by omega, by omega⟩
          · rw [if_neg hlt]
            exact hb
        · intro x hx
          by_cases hxj : x = j
          · subst hxj
            simp only [if_pos rfl] at hx ⊢
            exact ⟨hjlo, hjhi, hk1, hk2⟩
          · simp only [if_neg hxj] at hx ⊢
            exact hn x hx

/-- Invariant propagation through the row loop of `find_longest_match`. -/
theorem flmRows_inv (a b : List Char) (alo blo bhi ahi : ℕ) :
    ∀ (n s : ℕ) (best : ℕ × ℕ × ℕ) (jl : ℕ → ℕ),
      alo ≤ s → s + n ≤ ahi →
      FlmBestInv alo ahi blo bhi best → FlmRowInv alo blo bhi s jl →
      FlmBestInv alo ahi blo bhi
        (flmRows a b blo bhi (List.range' s n) best jl).1 := by
  intro n
  induction n with
  | zero => intro s best jl hs hle hb hjl; exact hb
  | succ n ih =>
    intro s best jl hs hle hb hjl
    rw [List.range'_succ]
    simp only [flmRows]
    obtain ⟨hb2, hn2⟩ := flmInner_inv jl s alo blo bhi ahi hs (by omega) hjl
      (b2j b (a.getD s ' ')) best (fun _ => 0) hb (fun j hj => absurd rfl hj)
    exact ih (s + 1) _ _ (by omega) (by omega) hb2 hn2

/-- The leftward extension stays inside the rectangle. -/
theorem extendLeft_bounds (a b : List Char) (alo blo ahi bhi : ℕ) :
    ∀ (besti bestj bestsize : ℕ),
      alo ≤ besti → besti + bestsize ≤ ahi → blo ≤ bestj → bestj + bestsize ≤ bhi →
      alo ≤ (extendLeft a b alo blo besti bestj bestsize).1 ∧
      (extendLeft a b alo blo besti bestj bestsize).1 +
        (extendLeft a b alo blo besti bestj bestsize).2.2 ≤ ahi ∧
      blo ≤ (extendLeft a b alo blo besti bestj bestsize).2.1 ∧
      (extendLeft a b alo blo besti bestj bestsize).2.1 +
        (extendLeft a b alo blo besti bestj bestsize).2.2 ≤ bhi := by
  intro besti
  induction besti using Nat.strong_induction_on with
  | _ besti ih =>
    intro bestj bestsize h1 h2 h3 h4
    rw [extendLeft]
    by_cases hc : alo < besti ∧ blo < bestj ∧
        a.getD (besti - 1) ' ' = b.getD (bestj - 1) ' '
    · rw [dif_pos hc]
      exact ih (besti - 1) (by omega) (bestj - 1) (bestsize + 1)
        (by omega) (by omega) (by omega) (by omega)
    · rw [dif_neg hc]
      exact ⟨h1, h2, h3, h4⟩

/-- The rightward extension stays inside the rectangle. -/
theorem extendRight_bounds (a b : List Char) (ahi bhi alo blo : ℕ) :
    ∀ (N besti bestj bestsize : ℕ), ahi - (besti + bestsize) ≤ N →
      alo ≤ besti → besti + bestsize ≤ ahi → blo ≤ bestj → bestj + bestsize ≤ bhi →
      alo ≤ (extendRight a b ahi bhi besti bestj bestsize).1 ∧
      (extendRight a b ahi bhi besti bestj bestsize).1 +
        (extendRight a b ahi bhi besti bestj bestsize).2.2 ≤ ahi ∧
      blo ≤ (extendRight a b ahi bhi besti bestj bestsize).2.1 ∧
      (extendRight a b ahi bhi besti bestj bestsize).2.1 +
        (extendRight a b ahi bhi besti bestj bestsize).2.2 ≤ bhi := by
  intro N
  induction N with
  | zero =>
    intro besti bestj bestsize hN h1 h2 h3 h4
    rw [extendRight]
    rw [dif_neg (fun hcc => absurd hcc.1 (by omega))]
    exact ⟨h1, h2, h3, h4⟩
  | succ N ih =>
    intro besti bestj bestsize hN h1 h2 h3 h4
    rw [extendRight]
    by_cases hc : besti + bestsize < ahi ∧ bestj + bestsize < bhi ∧
        a.getD (besti + bestsize) ' ' = b.getD (bestj + bestsize) ' '
    · rw [dif_pos hc]
      exact ih besti bestj (bestsize + 1) (by omega) h1 (by omega) h3 (by omega)
    · rw [dif_neg hc]
      exact ⟨h1, h2, h3, h4⟩

/-- The longest match returned by `flm` lies inside the searched rectangle,
so recursing on its two sides strictly shrinks the rectangle: the fuel used
by `matchingMF` is always sufficient. -/
theorem flm_bounds (a b : List Char) (alo ahi blo bhi : ℕ)
    (h1 : alo ≤ ahi) (h2 : blo ≤ bhi) :
    alo ≤ (flm a b alo ahi blo bhi).1 ∧
    (flm a b alo ahi blo bhi).1 + (flm a b alo ahi blo bhi).2.2 ≤ ahi ∧
    blo ≤ (flm a b alo ahi blo bhi).2.1 ∧
    (flm a b alo ahi blo bhi).2.1 + (flm a b alo ahi blo bhi).2.2 ≤ bhi := by
  have hdpinv := flmRows_inv a b alo blo bhi ahi (ahi - alo) alo (alo, blo, 0)
    (fun _ => 0) (le_refl _) (by omega)
    ⟨fun _ => rfl, fun h => absurd rfl h⟩ (fun j hj => absurd rfl hj)
  have hdpb : alo ≤ (flmRows a b blo bhi (List.range' alo (ahi - alo))
        (alo, blo, 0) (fun _ => 0)).1.1 ∧
      (flmRows a b blo bhi (List.range' alo (ahi - alo))
        (alo, blo, 0) (fun _ => 0)).1.1 +
        (flmRows a b blo bhi (List.range' alo (ahi - alo))
          (alo, blo, 0) (fun _ => 0)).1.2.2 ≤ ahi ∧
      blo ≤ (flmRows a b blo bhi (List.range' alo (ahi - alo))
        (alo, blo, 0) (fun _ => 0)).1.2.1 ∧
      (flmRows a b blo bhi (List.range' alo (ahi - alo))
        (alo, blo, 0) (fun _ => 0)).1.2.1 +
        (flmRows a b blo bhi (List.range' alo (ahi - alo))
          (alo, blo, 0) (fun _ => 0)).1.2.2 ≤ bhi := by
    by_cases hz : (flmRows a b blo bhi (List.range' alo (ahi - alo))
        (alo, blo, 0) (fun _ => 0)).1.2.2 = 0
    · have h0 := hdpinv.1 hz
      rw [h0]
      dsimp only
      exact ⟨le_refl _, by omega, le_refl _, by omega⟩
    · exact hdpinv.2 hz
  have hL := extendLeft_bounds a b alo blo ahi bhi _ _ _
    hdpb.1 hdpb.2.1 hdpb.2.2.1 hdpb.2.2.2
  have hR := extendRight_bounds a b ahi bhi alo blo ahi _ _ _
    (by omega) hL.1 hL.2.1 hL.2.2.1 hL.2.2.2
  simp only [flm]
  exact hR

/-- Fuel irrelevance for the matching-block recursion: any fuel strictly
above the rectangle measure computes the same value, so the fuel
`(ahi-alo)+(bhi-blo)+1` used by `matchingTotal` is canonical. -/
theorem matchingMF_fuel (a b : List Char) :
    ∀ (N alo ahi blo bhi fuel1 fuel2 : ℕ),
      (ahi - alo) + (bhi - blo) ≤ N →
      alo ≤ ahi → blo ≤ bhi →
      (ahi - alo) + (bhi - blo) < fuel1 → (ahi - alo) + (bhi - blo) < fuel2 →
      matchingMF a b fuel1 alo ahi blo bhi = matchingMF a b fuel2 alo ahi blo bhi := by
  intro N
  induction N with
  | zero =>
    intro alo ahi blo bhi fuel1 fuel2 hm h1 h2 hf1 hf2
    obtain ⟨hb1, hb2, hb3, hb4⟩ := flm_bounds a b alo ahi blo bhi h1 h2
    cases fuel1 with
    | zero => omega
    | succ f1 =>
      cases fuel2 with
      | zero => omega
      | succ f2 =>
        simp only [matchingMF]
        have hk : (flm a b alo ahi blo bhi).2.2 = 0 := by omega
        rw [if_pos hk, if_pos hk]
  | succ N ih =>
    intro alo ahi blo bhi fuel1 fuel2 hm h1 h2 hf1 hf2
    obtain ⟨hb1, hb2, hb3, hb4⟩ := flm_bounds a b alo ahi blo bhi h1 h2
    cases fuel1 with
    | zero => omega
    | succ f1 =>
      cases fuel2 with
      | zero => omega
      | succ f2 =>
        simp only [matchingMF]
        by_cases hk : (flm a b alo ahi blo bhi).2.2 = 0
        · rw [if_pos hk, if_pos hk]
        · rw [if_neg hk, if_neg hk]
          rw [ih alo (flm a b alo ahi blo bhi).1 blo (flm a b alo ahi blo bhi).2.1
              f1 f2 (by omega) (by omega) (by omega) (by omega) (by omega),
            ih ((flm a b alo ahi blo bhi).1 + (flm a b alo ahi blo bhi).2.2) ahi
              ((flm a b alo ahi blo bhi).2.1 + (flm a b alo ahi blo bhi).2.2) bhi
              f1 f2 (by omega) (by omega) (by omega) (by omega) (by omega)]

/-- The fuel of `matchingTotal` suffices: any larger fuel gives the same
matching total. -/
theorem matchingTotal_fuel (a b : List Char) (fuel : ℕ)
    (h : a.length + b.length < fuel) :
    matchingMF a b fuel 0 a.length 0 b.length = matchingTotal a b := by
  rw [matchingTotal]
  exact matchingMF_fuel a b (a.length + b.length) 0 a.length 0 b.length
    fuel (a.length + b.length + 1) (by omega) (by omega) (by omega)
    (by omega) (by omega)

end ND
